import Mathlib

/-!
Verification of the NTU admin-helper document pipeline and retrieval engine.

Conventions of the shallow embedding:
* A Python `str` is modelled as `List Char` (a sequence of Unicode scalar
  values, matching Python's code-point indexing and slicing).
* Python `float` distances are modelled as `ℚ`; the literals 0.2, 0.15, 0.1
  denote the corresponding rationals.
* `str.lower` / `str.strip` / `str.isdigit` are modelled on the ASCII range
  (`pyLowerChar`, `pyIsSpace`, `pyIsDigit`); all inputs relevant here are
  ASCII or CJK characters, on which the models agree with Python.
* The vector-store collaborator (chromadb) is external to the repository; it
  is modelled as a list of entries whose distance may depend on the query
  text, with `storeQuery` returning the filtered entries sorted ascending by
  distance and truncated to `n` results.  In this model a filtered query
  never raises, so the `except` fallback branches of the source are never
  taken.
-/

/-- Python `str` as a list of code points. -/
abbrev Str := List Char

/-- String-literal convenience: the code points of a literal. -/
def lit (s : String) : Str := s.data

/-- The whitespace characters stripped by Python's `str.strip()` (ASCII range). -/
def pyIsSpace (c : Char) : Bool :=
  c = ' ' || c = '\t' || c = '\n' || c = '\r' || c = Char.ofNat 11 || c = Char.ofNat 12

/-- Python `str.isdigit` on a single character (ASCII decimal digits). -/
def pyIsDigit (c : Char) : Bool := c.isDigit

/-- Python `str.isdigit()` on a whole string: non-empty and all digits. -/
def pyStrIsDigit (s : Str) : Bool := !s.isEmpty && s.all pyIsDigit

/-- Python `str.lower` on a single character (ASCII case folding). -/
def pyLowerChar (c : Char) : Char :=
  if h : 65 ≤ c.toNat ∧ c.toNat ≤ 90 then Char.ofNatAux (c.toNat + 32) (Or.inl (by omega))
  else c

/-- Python `str.lower`. -/
def pyLower (s : Str) : Str := s.map pyLowerChar

/-- Python `str.strip()`: drop leading and trailing whitespace. -/
def pyStrip (s : Str) : Str :=
  ((s.dropWhile pyIsSpace).reverse.dropWhile pyIsSpace).reverse

/-- Python `str.lstrip("#")`. -/
def lstripHash (s : Str) : Str := s.dropWhile (· = '#')

/-- Python `sub in s` (substring containment). -/
def containsSub (sub : Str) : Str → Bool
  | [] => sub.isEmpty
  | c :: cs => sub.isPrefixOf (c :: cs) || containsSub sub cs

/-- Python `s.split(marker)[0]`: the prefix of `s` before the first occurrence
of `marker` (the whole of `s` when `marker` does not occur).  `marker` is
assumed non-empty, as at every call site. -/
def beforeSub (marker : Str) : Str → Str
  | [] => []
  | c :: cs => if marker.isPrefixOf (c :: cs) then [] else c :: beforeSub marker cs

/-- Python `s.replace(pat, rep)` for a non-empty literal `pat`
(non-overlapping, left to right).  The `fuel` argument only serves structural
termination; any `fuel ≥ s.length` computes the replacement. -/
def replaceSubAux (pat rep : Str) : Nat → Str → Str
  | 0, s => s
  | _ + 1, [] => []
  | fuel + 1, c :: cs =>
    if pat.isPrefixOf (c :: cs) then
      match pat with
      | [] => c :: cs
      | _ :: ps => rep ++ replaceSubAux pat rep fuel (cs.drop ps.length)
    else c :: replaceSubAux pat rep fuel cs

/-- Python `s.replace(pat, rep)` for a non-empty literal `pat`. -/
def replaceSub (pat rep : Str) (s : Str) : Str := replaceSubAux pat rep s.length s

/-- Python `s.split("\n")`. -/
def splitOnNL : Str → List Str
  | [] => [[]]
  | c :: cs =>
    if c = '\n' then [] :: splitOnNL cs
    else
      match splitOnNL cs with
      | [] => [[c]]
      | h :: t => (c :: h) :: t

/-- Python `"\n".join(lines)`. -/
def joinNL : List Str → Str
  | [] => []
  | [l] => l
  | l :: ls => l ++ '\n' :: joinNL ls

/-! ## processor.py : DataProcessor.clean_text_advanced -/

/-- The supplementary-info marker `【系統補充位置資訊】`. -/
def enrichMarker : Str := lit "【系統補充位置資訊】"

/-- The admin footer whose first occurrence truncates admin documents. -/
def adminFooter : Str :=
  lit "Overseas Chinese and Mainland Chinese Students Advising Division\n列印成績單"

/-- The fixed noise-phrase list of `clean_text_advanced`. -/
def noisePatterns : List Str :=
  [ lit "Administration Building - List of Offices"
  , lit "Main Content"
  , lit "地圖 MAP"
  , lit "校園景觀 Campus View"
  , lit "更多資訊"
  , lit "學校地圖上的建物編號"
  , lit "Building ID /"
  , lit "單位清單 / Offices list" ]

/-- `line.isdigit() and len(line) <= 4 or (line.startswith("B") and line[1:].isdigit())`. -/
def isRoomLine (l : Str) : Bool :=
  (pyStrIsDigit l && l.length ≤ 4) || ((lit "B").isPrefixOf l && pyStrIsDigit (l.drop 1))

/-- `next1[0].isdigit()`; the source only evaluates this on non-empty lines. -/
def headIsDigit : Str → Bool
  | [] => false
  | c :: _ => pyIsDigit c

/-- The grouping condition on the line after a room number:
`not (next1[0].isdigit() or "#" in next1 or "樓" in next1)`. -/
def groupCond (n1 : Str) : Bool :=
  !(headIsDigit n1 || containsSub (lit "#") n1 || containsSub (lit "樓") n1)

/-- `f"- {line} {next1} ({next2})"`. -/
def groupLine (l n1 n2 : Str) : Str :=
  lit "- " ++ l ++ lit " " ++ n1 ++ lit " (" ++ n2 ++ lit ")"

/-- The floor-header promotion for a single line: lines under 10 characters
containing `樓` gain a `## ` prefix unless already present. -/
def floorPromote (l : Str) : Str :=
  if containsSub (lit "樓") l && l.length < 10 then
    if (lit "##").isPrefixOf l then l else lit "## " ++ l
  else l

/-- The structural-reformatting pass of `clean_text_advanced` (step 3):
a room-number line followed (with at least two lines remaining) by a
groupable line is rewritten to `- room zh (en)`, consuming three lines;
otherwise floor headers are promoted. -/
def reformatAux : Nat → List Str → List Str
  | 0, _ => []
  | _ + 1, [] => []
  | _ + 1, [l] => [floorPromote l]
  | fuel + 1, [l, l2] => floorPromote l :: reformatAux fuel [l2]
  | fuel + 1, l :: n1 :: n2 :: rest =>
    if isRoomLine l && groupCond n1 then groupLine l n1 n2 :: reformatAux fuel rest
    else floorPromote l :: reformatAux fuel (n1 :: n2 :: rest)

/-- The structural-reformatting pass, with enough fuel for its input. -/
def reformat (ls : List Str) : List Str := reformatAux ls.length ls

/-- The line-filtering pass of `clean_text_advanced` (step 2): strip each
line, drop empties and noise lines, strip leading `##` markers. -/
def cleanLinesPass (lines : List Str) : List Str :=
  lines.filterMap fun l =>
    let l := pyStrip l
    if l.isEmpty then none
    else if noisePatterns.any fun p => containsSub p l then none
    else some (if (lit "##").isPrefixOf l then pyStrip (lstripHash l) else l)

/-- `DataProcessor.clean_text_advanced` (processor.py lines 98-172). -/
def clean_text_advanced (text : Str) (dept : Str) : Str :=
  if text.isEmpty then []
  else
    let text :=
      if containsSub enrichMarker text then pyStrip (beforeSub enrichMarker text) else text
    let text :=
      if dept = lit "admin" then
        beforeSub adminFooter (replaceSub (lit "Admi nistration") (lit "Administration") text)
      else text
    let cleanLines := cleanLinesPass (splitOnNL text)
    let result := joinNL (reformat cleanLines)
    if containsSub enrichMarker result then pyStrip (beforeSub enrichMarker result) else result

/-! ## processor.py : DataProcessor._extract_office_locations

The two line patterns are the regexes
`^(?:##\s*)?(\d+樓|B\d+)` (floor header, `re.match`, prefix-anchored) and
`^-\s*(\d+|B\d+)\s+(.+?)(?:\s*\((.+?)\))?$` (office entry, anchored both
ends).  Both are modelled by direct parsers below; greedy/lazy quantifier
semantics are reproduced (see the comments).  The extractor strips each line
before matching, so these parsers are only ever applied to strings without
leading/trailing whitespace and without line breaks. -/

/-- The capture group `(\d+樓|B\d+)`: a maximal digit run followed by `樓`,
or `B` followed by a non-empty digit run.  (`\d+` is greedy; since `樓` and
`B` are not digits, maximal munch is exact.) -/
def floorGroup : Str → Option Str
  | [] => none
  | c :: cs =>
    if pyIsDigit c then
      let ds := (c :: cs).takeWhile pyIsDigit
      match (c :: cs).drop ds.length with
      | d :: _ => if d = '樓' then some (ds ++ [d]) else none
      | [] => none
    else if c = 'B' then
      let ds := cs.takeWhile pyIsDigit
      if ds.isEmpty then none else some ('B' :: ds)
    else none

/-- `re.match(r'^(?:##\s*)?(\d+樓|B\d+)', line)`, returning group 1.
If the optional `##\s*` prefix is present but the group then fails, the
regex retries without it, which also fails (a `#` can start neither
alternative); so trying the prefixed parse only when `##` leads is exact. -/
def floorMatch (l : Str) : Option Str :=
  if (lit "##").isPrefixOf l then floorGroup ((l.drop 2).dropWhile pyIsSpace)
  else floorGroup l

/-- The optional tail `(?:\s*\((.+?)\))?$` tested at a given split point:
skip spaces, require `(`, and require the final character of the line to be
`)` with a non-empty body between (the lazy inner group together with the
`$` anchor forces exactly this shape). -/
def parenForm (t : Str) : Option Str :=
  match t.dropWhile pyIsSpace with
  | '(' :: rest =>
    if 2 ≤ rest.length && rest.getLast? = some ')' then some rest.dropLast else none
  | _ => none

/-- The lazy name group `(.+?)` followed by the optional parenthesised
English name: the shortest non-empty prefix whose remainder is a
`parenForm`, else the whole string with no English name. -/
def nameSplit (name : Str) : Str → Str × Option Str
  | [] => (name, none)
  | c :: cs =>
    match parenForm (c :: cs) with
    | some inner => (name, some inner)
    | none => nameSplit (name ++ [c]) cs

/-- `\s+` followed by the name groups; the leading whitespace run is maximal
(the regex is greedy and the remainder matches any non-empty string, so no
backtracking into `\s+` occurs on stripped lines). -/
def officeTail (room : Str) (s : Str) : Option (Str × Str × Option Str) :=
  match s with
  | c :: _ =>
    if pyIsSpace c then
      match s.dropWhile pyIsSpace with
      | d :: ds =>
        let ns := nameSplit [d] ds
        some (room, ns.1, ns.2)
      | [] => none
    else none
  | [] => none

/-- `re.match(r'^-\s*(\d+|B\d+)\s+(.+?)(?:\s*\((.+?)\))?$', line)`,
returning (room, raw name, raw optional English name). -/
def officeMatch : Str → Option (Str × Str × Option Str)
  | '-' :: rest =>
    let r1 := rest.dropWhile pyIsSpace
    match r1 with
    | c :: cs =>
      if pyIsDigit c then
        let room := r1.takeWhile pyIsDigit
        officeTail room (r1.drop room.length)
      else if c = 'B' then
        let ds := cs.takeWhile pyIsDigit
        if ds.isEmpty then none else officeTail ('B' :: ds) (r1.drop (1 + ds.length))
      else none
    | [] => none
  | _ => none

/-- One parsed office entry (`building`, `floor`, `room`, `name_zh`, `name_en`). -/
structure OfficeRecord where
  building : Str
  floor : Str
  room : Str
  name_zh : Str
  name_en : Str
deriving DecidableEq

/-- The record built by `_extract_office_locations` from a successful office
match under floor `f`. -/
def mkOfficeRecord (b f room zh : Str) (en : Option Str) : OfficeRecord :=
  { building := b, floor := f, room := room, name_zh := pyStrip zh
  , name_en := (en.map pyStrip).getD [] }

/-- The line loop of `_extract_office_locations`: a single `current_floor`
state variable, floor headers update it, office entries emit a record when
it is non-empty, all other lines are skipped. -/
def recsOf (b : Str) : Str → List Str → List OfficeRecord
  | _, [] => []
  | f, l :: ls =>
    let l := pyStrip l
    match floorMatch l with
    | some tok => recsOf b tok ls
    | none =>
      match officeMatch l with
      | some (room, zh, en) =>
        if f.isEmpty then recsOf b f ls
        else mkOfficeRecord b f room zh en :: recsOf b f ls
      | none => recsOf b f ls

/-- `DataProcessor._extract_office_locations` (processor.py lines 229-267). -/
def extract_office_locations (content : Str) (building_name : Str) : List OfficeRecord :=
  recsOf building_name [] (splitOnNL content)

/-- The floor state left by a list of lines, starting from `f`. -/
def stepFloor (f : Str) (l : Str) : Str :=
  match floorMatch (pyStrip l) with
  | some tok => tok
  | none => f

/-- Folded floor state over a list of lines. -/
def floorAfter (f : Str) (ls : List Str) : Str := ls.foldl stepFloor f

/-! ## processor.py : DataProcessor._normalize_unit_id -/

/-- The punctuation/bracket characters of the class
`[\s\(\)（）\[\]【】\-–—_·•:：,，。．./\\]` (whitespace handled by
`pyIsSpace`). -/
def strippedPunct : List Char :=
  ['(', ')', '（', '）', '[', ']', '【', '】', '-', '–', '—', '_', '·', '•',
   ':', '：', ',', '，', '。', '．', '.', '/', '\\']

/-- Membership in the stripped character class of `_normalize_unit_id`. -/
def strippedChar (c : Char) : Bool := pyIsSpace c || strippedPunct.contains c

/-- `DataProcessor._normalize_unit_id` (processor.py lines 209-214): strip
the character class, then lower-case. -/
def normalize_unit_id (unit_name : Str) : Str :=
  if unit_name.isEmpty then []
  else pyLower (unit_name.filter fun c => !strippedChar c)

/-! ## processor.py : DataProcessor._create_location_chunks -/

/-- Chunk/query metadata: a Python dict with the keys used by the pipeline;
a missing key is `none`. -/
structure ChunkMeta where
  title : Option Str := none
  url : Option Str := none
  department : Option Str := none
  mtype : Option Str := none
  unit_name : Option Str := none
  unit_id : Option Str := none
  building : Option Str := none
  floor : Option Str := none
  room : Option Str := none
deriving DecidableEq

/-- A retrieval unit: text plus metadata. -/
structure Chunk where
  text : Str
  metadata : ChunkMeta
deriving DecidableEq

/-- The bilingual location-chunk template of `_create_location_chunks`. -/
def locationChunkText (o : OfficeRecord) : Str :=
  lit "【" ++ o.name_zh ++ lit "位置資訊】\n" ++ o.name_zh ++
  lit "\n英文名稱：" ++ o.name_en ++
  lit "\n位置：" ++ o.building ++ lit " " ++ o.floor ++ lit " " ++ o.room ++
  lit "室\n建築物：" ++ o.building ++
  lit "\n樓層：" ++ o.floor ++
  lit "\n房間號碼：" ++ o.room ++ lit "\n\n" ++
  o.name_zh ++ lit "位於" ++ o.building ++ o.floor ++ lit "的" ++ o.room ++
  lit "室。\n如需前往" ++ o.name_zh ++ lit "，請至" ++ o.building ++ o.floor ++
  lit "找" ++ o.room ++ lit "室。" ++
  (if o.name_en.isEmpty then []
   else lit "\n" ++ o.name_en ++ lit " is located at Room " ++ o.room ++
        lit ", " ++ o.floor ++ lit ", " ++ o.building ++ lit ".")

/-- `DataProcessor._create_location_chunks` (processor.py lines 269-308). -/
def create_location_chunks (offices : List OfficeRecord) (source_url department : Str) :
    List Chunk :=
  offices.map fun o =>
    { text := locationChunkText o
    , metadata :=
      { title := some (o.name_zh ++ lit "位置")
      , url := some source_url
      , department := some department
      , mtype := some (lit "location")
      , unit_name := some o.name_zh
      , unit_id := some (normalize_unit_id o.name_zh)
      , building := some o.building
      , floor := some o.floor
      , room := some o.room } }

/-! ## rag_engine.py : EnhancedRAGEngine

The chromadb collection is modelled as a list of `StoreEntry` values whose
distance may depend on the query text; `storeQuery` models
`collection.query`: the entries matching the metadata filter, sorted
ascending by distance (stable), truncated to `n_results`.  In this model a
filtered query never raises, so the `except` fallbacks of the source are
never exercised. -/

/-- One stored chunk of the vector-store collaborator, with its
query-dependent distance. -/
structure StoreEntry where
  doc : Str
  meta : ChunkMeta
  dist : Str → ℚ

/-- The metadata filters the engine builds: `{"unit_id": u}` and
`{"$and": [{"unit_id": u}, {"type": "location"}]}`. -/
inductive WhereFilter where
  | unitId (u : Str)
  | unitIdLoc (u : Str)

/-- Exact-match metadata filtering (a missing key matches nothing). -/
def filterMatches (m : ChunkMeta) : WhereFilter → Bool
  | .unitId u => decide (m.unit_id = some u)
  | .unitIdLoc u => decide (m.unit_id = some u) && decide (m.mtype = some (lit "location"))

/-- Stable insertion into a distance-sorted list. -/
def insertByKey {α : Type} (key : α → ℚ) (x : α) : List α → List α
  | [] => [x]
  | y :: ys => if key x ≤ key y then x :: y :: ys else y :: insertByKey key x ys

/-- Stable sort by a rational key (the model of Python's stable `sorted`). -/
def sortByKey {α : Type} (key : α → ℚ) : List α → List α
  | [] => []
  | x :: xs => insertByKey key x (sortByKey key xs)

/-- Python `zip` of three lists (truncating to the shortest). -/
def zip3 {α β γ : Type} : List α → List β → List γ → List (α × β × γ)
  | a :: as, b :: bs, c :: cs => (a, b, c) :: zip3 as bs cs
  | _, _, _ => []

/-- The three parallel sequences `{'documents': [..], 'metadatas': [..],
'distances': [..]}` of a query/retrieval result. -/
structure RetrievalResult where
  documents : List Str
  metadatas : List ChunkMeta
  distances : List ℚ
deriving DecidableEq

/-- Rebuild the three parallel lists from a list of (doc, meta, dist) triples. -/
def toResult (ts : List (Str × ChunkMeta × ℚ)) : RetrievalResult :=
  { documents := ts.map fun t => t.1
  , metadatas := ts.map fun t => t.2.1
  , distances := ts.map fun t => t.2.2 }

/-- The (doc, meta, dist) triples of a result (Python `zip` over the three lists). -/
def queryTriples (r : RetrievalResult) : List (Str × ChunkMeta × ℚ) :=
  zip3 r.documents r.metadatas r.distances

/-- The model of `collection.query(query_texts=[qtext], n_results=n, where=f)`. -/
def storeQuery (es : List StoreEntry) (qtext : Str) (n : Nat) (f : Option WhereFilter) :
    RetrievalResult :=
  let matching := match f with
    | none => es
    | some fl => es.filter fun e => filterMatches e.meta fl
  let scored := matching.map fun e => (e.doc, e.meta, e.dist qtext)
  toResult ((sortByKey (fun t => t.2.2) scored).take n)

/-- `EnhancedRAGEngine._is_location_query` keyword list. -/
def locationKeywords : List Str :=
  [lit "在哪", lit "位置", lit "地址", lit "怎麼去", lit "如何到", lit "where",
   lit "location", lit "幾樓"]

/-- `EnhancedRAGEngine._is_location_query`. -/
def is_location_query (query : Str) : Bool :=
  locationKeywords.any fun k => containsSub k (pyLower query)

/-- Phone keywords of `_get_query_intent`. -/
def phoneKeywords : List Str :=
  [lit "電話", lit "分機", lit "聯絡方式", lit "聯絡", lit "tel", lit "phone"]

/-- Service keywords of `_get_query_intent`. -/
def serviceKeywords : List Str :=
  [lit "服務", lit "業務", lit "職掌", lit "辦理", lit "申請", lit "流程",
   lit "規定", lit "要件"]

/-- `EnhancedRAGEngine._get_query_intent` (priority location > phone > service). -/
def get_query_intent (query : Str) : Str :=
  if is_location_query query then lit "location"
  else if phoneKeywords.any (fun k => containsSub (pyLower k) (pyLower query)) then lit "phone"
  else if serviceKeywords.any (fun k => containsSub (pyLower k) (pyLower query)) then lit "service"
  else lit "general"

/-- `EnhancedRAGEngine._apply_type_boost` (rag_engine.py lines 137-146). -/
def apply_type_boost (meta : ChunkMeta) (dist : ℚ) (intent : Str) : ℚ :=
  let chunk_type := meta.mtype.getD (lit "general")
  if intent = lit "location" ∧ chunk_type = lit "location" then max 0 (dist - 0.2)
  else if intent = lit "phone" ∧ chunk_type = lit "phone" then max 0 (dist - 0.15)
  else if intent = lit "service" ∧ chunk_type = lit "service" then max 0 (dist - 0.1)
  else dist

/-- `EnhancedRAGEngine._rerank_with_intent` (rag_engine.py lines 148-163). -/
def rerank_with_intent (docs : List Str) (metas : List ChunkMeta) (dists : List ℚ)
    (intent : Str) (top_k : Nat) : RetrievalResult :=
  if docs.isEmpty then { documents := [], metadatas := [], distances := [] }
  else
    let boosted := (zip3 docs metas dists).map fun t =>
      (t.1, t.2.1, apply_type_boost t.2.1 t.2.2 intent)
    toResult ((sortByKey (fun t => t.2.2) boosted).take top_k)

/-- The stage-2 dedup fingerprint `f"{url}_{title}_{doc[:80]}"`
(missing url/title default to the empty string). -/
def fpStr (m : ChunkMeta) (doc : Str) : Str :=
  m.url.getD [] ++ lit "_" ++ m.title.getD [] ++ lit "_" ++ doc.take 80

/-- Merge a batch of query triples into the accumulated (kept, seen-ids)
pair, skipping any triple whose fingerprint was already seen. -/
def dedupMerge (acc : List (Str × ChunkMeta × ℚ) × List Str)
    (items : List (Str × ChunkMeta × ℚ)) : List (Str × ChunkMeta × ℚ) × List Str :=
  items.foldl
    (fun a t =>
      if fpStr t.2.1 t.1 ∈ a.2 then a else (a.1 ++ [t], a.2 ++ [fpStr t.2.1 t.1]))
    acc

/-- `EnhancedRAGEngine.retrieve_stage2` (rag_engine.py lines 238-313):
per-unit-id filtered queries merged with fingerprint dedup; if that yields
nothing and unit names exist, unfiltered `"{name} {query}"` queries with the
same dedup; then sort ascending by distance and truncate. -/
def retrieve_stage2 (es : List StoreEntry) (unit_names unit_ids : List Str)
    (query : Str) (n_results : Nat) : RetrievalResult :=
  let step1 := unit_ids.foldl
    (fun a u => dedupMerge a (queryTriples (storeQuery es query n_results (some (.unitId u)))))
    ([], [])
  let step2 :=
    if step1.1.isEmpty && !unit_names.isEmpty then
      unit_names.foldl
        (fun a un =>
          dedupMerge a (queryTriples (storeQuery es (un ++ lit " " ++ query) n_results none)))
        step1
    else step1
  toResult ((sortByKey (fun t => t.2.2) step2.1).take n_results)

/-- The character class `[^\s,，。、]` of the unit-name patterns. -/
def negClass (c : Char) : Bool :=
  !(pyIsSpace c || c = ',' || c = '，' || c = '。' || c = '、')

/-- Greedy backtracking for `[^\s,，。、]{lo,hi}` followed by a literal
suffix: the largest `k ≤ m` with `k ≥ lo` such that the suffix starts at
offset `k`.  (Counting down from the maximal class run reproduces the greedy
quantifier.) -/
def tryK (suffix : Str) (s : Str) (lo : Nat) : Nat → Option Nat
  | 0 => none
  | k + 1 =>
    if k + 1 < lo then none
    else if suffix.isPrefixOf (s.drop (k + 1)) then some (k + 1)
    else tryK suffix s lo k

/-- One anchored attempt of the pattern `([^\s,，。、]{lo,hi}suffix)` at the
start of `s`: the matched group and the rest of the string after it. -/
def matchAt (lo hi : Nat) (suffix : Str) (s : Str) : Option (Str × Str) :=
  match tryK suffix s lo (min hi (s.takeWhile negClass).length) with
  | some k => some (s.take k ++ suffix, s.drop (k + suffix.length))
  | none => none

/-- `re.findall` for the unit-name patterns: leftmost, non-overlapping.
The fuel argument only serves structural termination; `fuel ≥ s.length`
computes the full scan (every step consumes at least one character). -/
def findallAux (lo hi : Nat) (suffix : Str) : Nat → Str → List Str
  | 0, _ => []
  | _ + 1, [] => []
  | fuel + 1, c :: cs =>
    match matchAt lo hi suffix (c :: cs) with
    | some (g, rest) => g :: findallAux lo hi suffix fuel rest
    | none => findallAux lo hi suffix fuel cs

/-- `re.findall(pattern, s)` for one unit-name pattern. -/
def reFindall (lo hi : Nat) (suffix : Str) (s : Str) : List Str :=
  findallAux lo hi suffix s.length s

/-- The ordered pattern list of `_extract_unit_names` (length bounds and
suffix of each regex). -/
def unitPatterns : List (Nat × Nat × Str) :=
  [(2, 6, lit "組"), (2, 6, lit "處"), (2, 8, lit "中心"), (2, 6, lit "部"),
   (2, 6, lit "室"), (2, 6, lit "館")]

/-- The stop-word set of `_extract_unit_names`. -/
def excludeTerms : List Str :=
  [lit "本組", lit "該組", lit "各組", lit "分組", lit "小組", lit "本部",
   lit "該部", lit "本處", lit "該處", lit "本中心", lit "辦公室", lit "會議室"]

/-- The verb-like characters excluded by `_extract_unit_names`. -/
def verbChars : List Char := ['由', '為', '至', '在', '向', '到']

/-- Insertion-ordered set (the model of accumulating into a Python `set`
and listing it). -/
def dedupKeepFirst (ls : List Str) : List Str :=
  ls.foldl (fun acc s => if s ∈ acc then acc else acc ++ [s]) []

/-- `EnhancedRAGEngine._extract_unit_names` (rag_engine.py lines 77-117). -/
def extract_unit_names (text : Str) : List Str :=
  dedupKeepFirst <| unitPatterns.flatMap fun p =>
    (reFindall p.1 p.2.1 p.2.2 text).filterMap fun m =>
      let cm := pyStrip m
      if !cm.isEmpty && headIsDigit cm then none
      else if cm ∈ excludeTerms then none
      else if verbChars.any fun v => cm.contains v then none
      else some cm

/-- `EnhancedRAGEngine.retrieve_stage1`. -/
def retrieve_stage1 (es : List StoreEntry) (query : Str) (n_results : Nat) :
    RetrievalResult :=
  storeQuery es query n_results none

/-- The unit ids read from Stage-1 metadata in `retrieve`, with the
corrupted-id guard `unit_id and len(unit_id) < 50 and '\n' not in unit_id`. -/
def resolvedUnitIds (metas : List ChunkMeta) : List Str :=
  dedupKeepFirst <| metas.filterMap fun m =>
    match m.unit_id with
    | some uid =>
      if !uid.isEmpty && uid.length < 50 && !uid.contains '\n' then some uid else none
    | none => none

/-- The unit names collected in `retrieve`: `extractUnitNames` over every
Stage-1 document, plus non-empty `unit_name` metadata values. -/
def resolvedUnitNames (docs : List Str) (metas : List ChunkMeta) : List Str :=
  dedupKeepFirst <|
    (docs.flatMap extract_unit_names) ++
      metas.filterMap fun m =>
        match m.unit_name with
        | some un => if un.isEmpty then none else some un
        | none => none

/-- Accumulator of `_append_location_chunks`: the three parallel lists plus
the seen 100-character doc prefixes. -/
structure AugAcc where
  docs : List Str
  metas : List ChunkMeta
  dists : List ℚ
  seen : List Str

/-- The `_append` closure: skip if the 100-character doc prefix was seen,
otherwise append to all three lists and record the prefix. -/
def augAppend (a : AugAcc) (doc : Str) (m : ChunkMeta) (d : ℚ) : AugAcc :=
  if doc.take 100 ∈ a.seen then a
  else
    { docs := a.docs ++ [doc], metas := a.metas ++ [m], dists := a.dists ++ [d]
    , seen := a.seen ++ [doc.take 100] }

/-- One per-unit iteration of `_append_location_chunks`: query (top 2), keep
only `type == 'location'` results, append each unseen one. -/
def augStep (es : List StoreEntry) (f : Option WhereFilter) (qtext : Str) (a : AugAcc) :
    AugAcc :=
  (queryTriples (storeQuery es qtext 2 f)).foldl
    (fun a t =>
      if t.2.1.mtype = some (lit "location") then augAppend a t.1 t.2.1 t.2.2 else a)
    a

/-- `EnhancedRAGEngine._append_location_chunks` (rag_engine.py lines 165-225). -/
def append_location_chunks (es : List StoreEntry) (results : RetrievalResult)
    (unit_ids unit_names : List Str) : RetrievalResult :=
  let a0 : AugAcc :=
    { docs := results.documents, metas := results.metadatas
    , dists := results.distances, seen := results.documents.map fun d => d.take 100 }
  let a1 := unit_ids.foldl (fun a u => augStep es (some (.unitIdLoc u)) u a) a0
  let a2 :=
    if unit_ids.isEmpty then unit_names.foldl (fun a un => augStep es none un a) a1
    else a1
  { documents := a2.docs, metadatas := a2.metas, distances := a2.dists }

/-- `EnhancedRAGEngine.retrieve_with_priority` (single-stage top-15 query
plus intent reranking to top 5). -/
def retrieve_with_priority (es : List StoreEntry) (query : Str) (intent : Str) :
    RetrievalResult :=
  let results := storeQuery es query 15 none
  rerank_with_intent results.documents results.metadatas results.distances intent 5

/-- `EnhancedRAGEngine.retrieve` (rag_engine.py lines 333-393). -/
def retrieve (es : List StoreEntry) (query : Str) (use_two_stage : Bool) :
    RetrievalResult :=
  let intent := get_query_intent query
  if !use_two_stage then retrieve_with_priority es query intent
  else
    let stage1_results := retrieve_stage1 es query 5
    let unit_names := resolvedUnitNames stage1_results.documents stage1_results.metadatas
    let unit_ids := resolvedUnitIds stage1_results.metadatas
    if unit_names.isEmpty && unit_ids.isEmpty then retrieve_with_priority es query intent
    else
      let stage2_results := retrieve_stage2 es unit_names unit_ids query 10
      let rr := rerank_with_intent stage2_results.documents stage2_results.metadatas
        stage2_results.distances intent 5
      append_location_chunks es rr unit_ids unit_names


/-! ## Derived notions used by the stated properties -/

/-- The entries of a result as (document, metadata) pairs. -/
def resultPairs (r : RetrievalResult) : List (Str × ChunkMeta) :=
  r.documents.zip r.metadatas

/-- The dedup fingerprint as the spec describes it: the tuple
(url, title, first 80 characters of the text). -/
def fpTuple (d : Str) (m : ChunkMeta) : Str × Str × Str :=
  (m.url.getD [], m.title.getD [], d.take 80)

/-- No two entries share the (url, title, first-80-characters) fingerprint. -/
def pairwiseDistinctFp (ps : List (Str × ChunkMeta)) : Prop :=
  ps.Pairwise fun a b => fpTuple a.1 a.2 ≠ fpTuple b.1 b.2

/-- A (doc, meta) pair that is literally one of the store's entries. -/
def entryPairProv (es : List StoreEntry) (p : Str × ChunkMeta) : Prop :=
  ∃ e ∈ es, e.doc = p.1 ∧ e.meta = p.2

/-- Every (document, metadata) pair of the result comes from the store. -/
def resultProv (es : List StoreEntry) (r : RetrievalResult) : Prop :=
  List.Forall₂ (fun d m => entryPairProv es (d, m)) r.documents r.metadatas

/-- No store entry shares its first-100-character document prefix with a
location-typed entry of a possibly different unit: the condition under which
the 100-character dedup of the augmentation step cannot shadow a location
chunk (C2's counterexample shows the guarantee fails without it). -/
def noShadow (es : List StoreEntry) : Prop :=
  ∀ e ∈ es, e.meta.mtype = some (lit "location") →
    ∀ e2 ∈ es, e2.doc.take 100 = e.doc.take 100 →
      e2.meta.mtype = some (lit "location") ∧ e2.meta.unit_id = e.meta.unit_id

/-- Invariant of the augmentation accumulator: the seen set is exactly the
100-character prefixes of the accumulated documents, and every accumulated
(doc, meta) pair comes from the store. -/
def augInv (es : List StoreEntry) (a : AugAcc) : Prop :=
  a.seen = a.docs.map (fun d => d.take 100) ∧
  List.Forall₂ (fun d m => entryPairProv es (d, m)) a.docs a.metas

/-- One accumulator extends another by appended tails. -/
def augExt (a b : AugAcc) : Prop :=
  ∃ td tm, b.docs = a.docs ++ td ∧ b.metas = a.metas ++ tm

/-- Two unit-name strings that differ only in stripped characters and in
letter case (the equivalence described by the C8 claim). -/
inductive StripCaseEquiv : Str → Str → Prop where
  | nil : StripCaseEquiv [] []
  | same {a b : Str} {c d : Char} : strippedChar c = false → strippedChar d = false →
      pyLowerChar c = pyLowerChar d → StripCaseEquiv a b → StripCaseEquiv (c :: a) (d :: b)
  | skipLeft {a b : Str} {c : Char} : strippedChar c = true → StripCaseEquiv a b →
      StripCaseEquiv (c :: a) b
  | skipRight {a b : Str} {c : Char} : strippedChar c = true → StripCaseEquiv a b →
      StripCaseEquiv a (c :: b)

/-- The reranking discount table exactly as the spec words it:
location −0.2, phone −0.15, service −0.1, no discount otherwise. -/
def specDiscount (intent : Str) : Option ℚ :=
  if intent = lit "location" then some 0.2
  else if intent = lit "phone" then some 0.15
  else if intent = lit "service" then some 0.1
  else none

/-- The per-candidate boost exactly as the spec words it: a candidate whose
chunk type equals the intent gets distance max(0, original − discount),
every other candidate is unchanged. -/
def specTypeBoost (meta : ChunkMeta) (dist : ℚ) (intent : Str) : ℚ :=
  match specDiscount intent with
  | some disc => if meta.mtype.getD (lit "general") = intent then max 0 (dist - disc) else dist
  | none => dist

/-! ## Concrete stores for the counterexamples and witnesses -/

/-- A general-typed chunk metadata of unit `u1`. -/
def metaGenU1 : ChunkMeta := { mtype := some (lit "general"), unit_id := some (lit "u1") }

/-- A location-typed chunk metadata of unit `u1`. -/
def metaLocU1 : ChunkMeta := { mtype := some (lit "location"), unit_id := some (lit "u1") }

/-- Two stored chunks with identical url, title and text. -/
def c3store : List StoreEntry :=
  [ { doc := lit "hello", meta := {}, dist := fun _ => 1 }
  , { doc := lit "hello", meta := {}, dist := fun _ => 1 } ]

/-- A store whose only location chunk for `u1` shares its full (short) text
with a general chunk of the same url/title: stage 2 dedups the location
chunk away and the augmentation's 100-character prefix check then skips it. -/
def c2store : List StoreEntry :=
  [ { doc := lit "Z", meta := metaGenU1, dist := fun _ => 0 }
  , { doc := lit "Z", meta := metaLocU1, dist := fun _ => 1 } ]

/-- A one-entry store holding a location chunk of unit `u1`. -/
def c2wstore : List StoreEntry :=
  [ { doc := lit "W", meta := metaLocU1, dist := fun _ => 1 } ]

/-- A store where the location chunk of `u1` shares its first 80 (but not
100) characters with a closer general chunk, plus a distant general chunk:
stage 2 drops the location chunk by fingerprint, reranking keeps distances
[1, 3], and augmentation appends the location chunk with distance 2. -/
def c4store : List StoreEntry :=
  [ { doc := List.replicate 81 'a' ++ lit "g", meta := metaGenU1, dist := fun _ => 1 }
  , { doc := List.replicate 81 'a' ++ lit "l", meta := metaLocU1, dist := fun _ => 2 }
  , { doc := lit "m", meta := metaGenU1, dist := fun _ => 3 } ]

/-- A one-entry store with constant distance 1. -/
def c4wstore : List StoreEntry :=
  [ { doc := lit "hello", meta := {}, dist := fun _ => 1 } ]

/-- Extension invariant of the augmentation accumulator over a base result:
the three lists extend the base in sync, and every appended row is
location-typed with a store-provenant distance. -/
def augSpec (es : List StoreEntry) (r : RetrievalResult) (a : AugAcc) : Prop :=
  ∃ td tm tq,
    a.docs = r.documents ++ td ∧ a.metas = r.metadatas ++ tm ∧
    a.dists = r.distances ++ tq ∧
    td.length = tm.length ∧ tm.length = tq.length ∧
    (∀ m ∈ tm, m.mtype = some (lit "location")) ∧
    (∀ d ∈ tq, ∃ e ∈ es, ∃ qt : Str, d = e.dist qt)

/-! ## General helper lemmas -/

theorem foldl_inv {α β : Type} {P : β → Prop} (step : β → α → β) :
    ∀ (l : List α) (b : β), P b → (∀ b x, x ∈ l → P b → P (step b x)) →
      P (l.foldl step b) := by
  intro l
  induction l with
  | nil => intro b hb _; simpa using hb
  | cons x t ih =>
    intro b hb hstep
    simp only [List.foldl_cons]
    exact ih _ (hstep b x (by simp) hb) fun b2 y hy => hstep b2 y (by simp [hy])

theorem insertByKey_perm {α : Type} (key : α → ℚ) (x : α) :
    ∀ l : List α, (insertByKey key x l).Perm (x :: l) := by
  intro l
  induction l with
  | nil => simp [insertByKey]
  | cons y ys ih =>
    by_cases h : key x ≤ key y
    · simp [insertByKey, h]
    · simp only [insertByKey, if_neg h]
      exact (ih.cons y).trans (List.Perm.swap x y ys)

theorem sortByKey_perm {α : Type} (key : α → ℚ) : ∀ l : List α, (sortByKey key l).Perm l := by
  intro l
  induction l with
  | nil => simp [sortByKey]
  | cons x t ih => exact (insertByKey_perm key x _).trans (ih.cons x)

theorem mem_sortByKey {α : Type} {key : α → ℚ} {l : List α} {x : α} :
    x ∈ sortByKey key l ↔ x ∈ l :=
  (sortByKey_perm key l).mem_iff

theorem insertByKey_pairwise {α : Type} (key : α → ℚ) (x : α) :
    ∀ {l : List α}, l.Pairwise (fun a b => key a ≤ key b) →
      (insertByKey key x l).Pairwise (fun a b => key a ≤ key b) := by
  intro l
  induction l with
  | nil => intro _; simp [insertByKey]
  | cons y ys ih =>
    intro h
    rcases List.pairwise_cons.mp h with ⟨hy, hys⟩
    by_cases hxy : key x ≤ key y
    · simp only [insertByKey, if_pos hxy]
      refine List.pairwise_cons.mpr ⟨?_, h⟩
      intro z hz
      rcases List.mem_cons.mp hz with rfl | hz2
      · exact hxy
      · exact le_trans hxy (hy z hz2)
    · simp only [insertByKey, if_neg hxy]
      refine List.pairwise_cons.mpr ⟨?_, ih hys⟩
      intro z hz
      rcases List.mem_cons.mp ((insertByKey_perm key x ys).mem_iff.mp hz) with rfl | hz3
      · exact le_of_not_le hxy
      · exact hy z hz3

theorem sortByKey_pairwise {α : Type} (key : α → ℚ) :
    ∀ l : List α, (sortByKey key l).Pairwise fun a b => key a ≤ key b := by
  intro l
  induction l with
  | nil => simp [sortByKey]
  | cons x t ih => exact insertByKey_pairwise key x ih

theorem zip3_map_same {α β γ δ : Type} (f : δ → α) (g : δ → β) (h : δ → γ) :
    ∀ l : List δ, zip3 (l.map f) (l.map g) (l.map h) = l.map fun x => (f x, g x, h x) := by
  intro l
  induction l with
  | nil => rfl
  | cons x t ih => simp [zip3, ih]

theorem queryTriples_toResult (ts : List (Str × ChunkMeta × ℚ)) :
    queryTriples (toResult ts) = ts := by
  simp only [queryTriples, toResult]
  rw [zip3_map_same]
  simp

theorem resultPairs_toResult (ts : List (Str × ChunkMeta × ℚ)) :
    resultPairs (toResult ts) = ts.map fun t => (t.1, t.2.1) := by
  simp only [resultPairs, toResult]
  rw [List.zip_map']

theorem queryTriples_storeQuery (es : List StoreEntry) (qt : Str) (n : Nat)
    (f : Option WhereFilter) :
    queryTriples (storeQuery es qt n f) =
      ((sortByKey (fun t => t.2.2)
        (((match f with
           | none => es
           | some fl => es.filter fun e => filterMatches e.meta fl : List StoreEntry)).map
            fun e => (e.doc, e.meta, e.dist qt))).take n) := by
  simp only [storeQuery]
  rw [queryTriples_toResult]

theorem mem_storeQuery {es : List StoreEntry} {qt : Str} {n : Nat} {f : Option WhereFilter}
    {t : Str × ChunkMeta × ℚ} (ht : t ∈ queryTriples (storeQuery es qt n f)) :
    ∃ e ∈ es, t = (e.doc, e.meta, e.dist qt) ∧
      ∀ fl, f = some fl → filterMatches e.meta fl = true := by
  rw [queryTriples_storeQuery] at ht
  have ht2 := mem_sortByKey.mp ((List.take_sublist _ _).subset ht)
  cases f with
  | none =>
    rcases List.mem_map.mp ht2 with ⟨e, he, rfl⟩
    exact ⟨e, he, rfl, fun fl h => by cases h⟩
  | some fl =>
    rcases List.mem_map.mp ht2 with ⟨e, he, rfl⟩
    rcases List.mem_filter.mp he with ⟨he2, hm⟩
    exact ⟨e, he2, rfl, fun fl2 h => by cases h; exact hm⟩

theorem storeQuery_filtered_nonempty {es : List StoreEntry} {qt : Str} {fl : WhereFilter}
    (hex : ∃ e ∈ es, filterMatches e.meta fl = true) {n : Nat} (hn : 0 < n) :
    queryTriples (storeQuery es qt n (some fl)) ≠ [] := by
  rw [queryTriples_storeQuery]
  intro htake
  have hflt : (es.filter fun e => filterMatches e.meta fl) ≠ [] := by
    rcases hex with ⟨e, he, hm⟩
    intro hempty
    have hmem : e ∈ es.filter fun e2 => filterMatches e2.meta fl := List.mem_filter.mpr ⟨he, hm⟩
    rw [hempty] at hmem
    cases hmem
  have hlen := congrArg List.length htake
  simp only [List.length_take] at hlen
  have hperm := (sortByKey_perm (fun t : Str × ChunkMeta × ℚ => t.2.2)
    ((es.filter fun e => filterMatches e.meta fl).map fun e => (e.doc, e.meta, e.dist qt))).length_eq
  simp only [List.length_map] at hperm
  have : (es.filter fun e => filterMatches e.meta fl).length ≠ 0 := by
    intro h0
    exact hflt (List.length_eq_zero.mp h0)
  simp only [List.length_nil] at hlen
  omega

/-! ## C1 : cleaning idempotence -/

/-- C1: the spec asserts `clean(clean(x)) == clean(x)` for every text; the
code violates it.  Cleaning `"1\na\n樓"` (department `""`) rewrites the three
lines into the single office line `"- 1 a (樓)"`, which is shorter than 10
characters and contains `樓`, so a second cleaning pass promotes it to the
floor header `"## - 1 a (樓)"`. -/
theorem C1_clean_not_idempotent :
    clean_text_advanced (clean_text_advanced (lit "1\na\n樓") []) [] ≠
      clean_text_advanced (lit "1\na\n樓") [] := by decide

/-! ## C9 : malformed unit-id guard -/

theorem mem_foldl_dedup {x : Str} :
    ∀ (l acc : List Str),
      x ∈ l.foldl (fun a s => if s ∈ a then a else a ++ [s]) acc → x ∈ acc ∨ x ∈ l := by
  intro l
  induction l with
  | nil => intro acc h; exact Or.inl (by simpa using h)
  | cons a t ih =>
    intro acc h
    simp only [List.foldl_cons] at h
    rcases ih _ h with h2 | h2
    · by_cases ha : a ∈ acc
      · rw [if_pos ha] at h2; exact Or.inl h2
      · rw [if_neg ha] at h2
        rcases List.mem_append.mp h2 with h3 | h3
        · exact Or.inl h3
        · simp only [List.mem_singleton] at h3
          subst h3
          exact Or.inr (by simp)
    · exact Or.inr (by simp [h2])

theorem mem_dedupKeepFirst {x : Str} {l : List Str} (h : x ∈ dedupKeepFirst l) : x ∈ l := by
  rcases mem_foldl_dedup l [] h with h2 | h2
  · cases h2
  · exact h2

/-- C9: a `unitId` read from Stage-1 metadata that is longer than 50
characters or contains a line break never enters `resolvedUnitIds`, the
exact list whose members `retrieve` hands to the stage-2 filters
(`WhereFilter.unitId`) and to the augmentation filters
(`WhereFilter.unitIdLoc`); so such an id is never used in any
metadata-filtered store query. -/
theorem C9_malformed_unit_ids_discarded :
    ∀ (metas : List ChunkMeta) (uid : Str),
      50 < uid.length ∨ uid.contains '\n' = true → uid ∉ resolvedUnitIds metas := by
  intro metas uid hbad hmem
  have h2 := mem_dedupKeepFirst hmem
  rcases List.mem_filterMap.mp h2 with ⟨m, _, hm⟩
  split at hm
  · split at hm
    · cases hm
      rename_i hg
      simp only [Bool.and_eq_true, Bool.not_eq_true', decide_eq_true_eq] at hg
      rcases hbad with hlen | hnl
      · omega
      · rw [hg.2] at hnl; cases hnl
    · cases hm
  · cases hm

theorem C9_witness :
    (50 < (List.replicate 51 'a').length ∨ (List.replicate 51 'a').contains '\n' = true) ∧
      List.replicate 51 'a' ∉
        resolvedUnitIds [{ unit_id := some (List.replicate 51 'a') }] :=
  ⟨Or.inl (by decide), C9_malformed_unit_ids_discarded _ _ (Or.inl (by decide))⟩

/-! ## C8 / C10 : normalization -/

theorem normalize_unit_id_eq (s : Str) :
    normalize_unit_id s = pyLower (s.filter fun c => !strippedChar c) := by
  cases s with
  | nil => rfl
  | cons c cs => rfl

theorem stripCaseEquiv_norm {a b : Str} (h : StripCaseEquiv a b) :
    pyLower (a.filter fun c => !strippedChar c) =
      pyLower (b.filter fun c => !strippedChar c) := by
  induction h with
  | nil => rfl
  | same hc hd hcd _ ih =>
    simp only [List.filter_cons, hc, hd, Bool.not_false, if_true, pyLower, List.map_cons]
    rw [hcd]
    exact congrArg _ ih
  | skipLeft hc _ ih =>
    simpa [List.filter_cons, hc] using ih
  | skipRight hc _ ih =>
    simpa [List.filter_cons, hc] using ih

/-- C8: `_normalize_unit_id` is a pure total function (a Lean function by
construction) that removes the whitespace/punctuation/bracket class and
case-folds the rest; in particular `normalize("註冊組") = normalize("註冊 組")`,
and any two unit names related by `StripCaseEquiv` (differing only in
stripped characters or letter case) map to the same key. -/
theorem C8_normalize_equivalence :
    normalize_unit_id (lit "註冊組") = normalize_unit_id (lit "註冊 組") ∧
    ∀ a b : Str, StripCaseEquiv a b → normalize_unit_id a = normalize_unit_id b := by
  constructor
  · decide
  · intro a b h
    rw [normalize_unit_id_eq, normalize_unit_id_eq]
    exact stripCaseEquiv_norm h

theorem C8_witness :
    StripCaseEquiv (lit "A B") (lit "ab") ∧
      normalize_unit_id (lit "A B") = normalize_unit_id (lit "ab") := by
  have h2 : StripCaseEquiv [Char.mk 66 (by decide)] [Char.mk 98 (by decide)] :=
    .same (by decide) (by decide) (by decide) .nil
  have h3 : StripCaseEquiv [Char.mk 32 (by decide), Char.mk 66 (by decide)]
      [Char.mk 98 (by decide)] := .skipLeft (by decide) h2
  have h4 : StripCaseEquiv
      [Char.mk 65 (by decide), Char.mk 32 (by decide), Char.mk 66 (by decide)]
      [Char.mk 97 (by decide), Char.mk 98 (by decide)] :=
    .same (by decide) (by decide) (by decide) h3
  exact ⟨h4, C8_normalize_equivalence.2 _ _ h4⟩

theorem toNat_pyLowerChar_of_upper {c : Char} (h : 65 ≤ c.toNat ∧ c.toNat ≤ 90) :
    (pyLowerChar c).toNat = c.toNat + 32 := by
  simp only [pyLowerChar, dif_pos h]
  rfl

theorem pyLowerChar_eq_self {c : Char} (h : ¬(65 ≤ c.toNat ∧ c.toNat ≤ 90)) :
    pyLowerChar c = c := by
  unfold pyLowerChar
  rw [dif_neg h]

theorem strippedChar_toNat {c : Char} (h : strippedChar c = true) :
    c.toNat ∈ [32, 9, 10, 13, 11, 12, 40, 41, 65288, 65289, 91, 93, 12304, 12305, 45,
      8211, 8212, 95, 183, 8226, 58, 65306, 44, 65292, 12290, 65294, 46, 47, 92] := by
  simp only [strippedChar, Bool.or_eq_true, pyIsSpace, decide_eq_true_eq] at h
  rcases h with h | h
  · rcases h with ((((h | h) | h) | h) | h) | h <;> subst h <;> decide
  · have h2 : c ∈ strippedPunct := List.elem_iff.mp h
    fin_cases h2 <;> decide

theorem strippedChar_false_of_range {c : Char}
    (h : (65 ≤ c.toNat ∧ c.toNat ≤ 90) ∨ (97 ≤ c.toNat ∧ c.toNat ≤ 122)) :
    strippedChar c = false := by
  cases hb : strippedChar c
  · rfl
  · have hmem := strippedChar_toNat hb
    simp only [List.mem_cons, List.not_mem_nil, or_false] at hmem
    omega

theorem strippedChar_pyLowerChar (c : Char) :
    strippedChar (pyLowerChar c) = strippedChar c := by
  by_cases h : 65 ≤ c.toNat ∧ c.toNat ≤ 90
  · rw [strippedChar_false_of_range (Or.inl h)]
    apply strippedChar_false_of_range
    rw [toNat_pyLowerChar_of_upper h]
    omega
  · rw [pyLowerChar_eq_self h]

theorem pyLowerChar_idem (c : Char) : pyLowerChar (pyLowerChar c) = pyLowerChar c := by
  by_cases h : 65 ≤ c.toNat ∧ c.toNat ≤ 90
  · apply pyLowerChar_eq_self
    rw [toNat_pyLowerChar_of_upper h]
    omega
  · rw [pyLowerChar_eq_self h]
    exact pyLowerChar_eq_self h

theorem filter_pyLower (l : Str) :
    (pyLower l).filter (fun c => !strippedChar c) =
      pyLower (l.filter fun c => !strippedChar c) := by
  induction l with
  | nil => rfl
  | cons c cs ih =>
    simp only [pyLower, List.map_cons, List.filter_cons, strippedChar_pyLowerChar]
    cases hc : strippedChar c <;> simp only [Bool.not_false, Bool.not_true, if_true] <;>
      simp only [pyLower] at ih
    · simp only [List.map_cons]
      exact congrArg _ ih
    · exact ih

theorem pyLower_idem (l : Str) : pyLower (pyLower l) = pyLower l := by
  simp only [pyLower, List.map_map]
  congr 1
  funext c
  exact pyLowerChar_idem c

/-- C10: `_normalize_unit_id` is idempotent, and every `unit_id` written
into location-chunk metadata at build time (the normalization of the
detected unit name) is a fixed point of it. -/
theorem C10_normalize_idempotent :
    (∀ s : Str, normalize_unit_id (normalize_unit_id s) = normalize_unit_id s) ∧
    ∀ (offices : List OfficeRecord) (url dept : Str) (ch : Chunk),
      ch ∈ create_location_chunks offices url dept →
      ∃ u, ch.metadata.unit_id = some u ∧ normalize_unit_id u = u := by
  have hidem : ∀ s : Str, normalize_unit_id (normalize_unit_id s) = normalize_unit_id s := by
    intro s
    rw [normalize_unit_id_eq s, normalize_unit_id_eq, filter_pyLower, List.filter_filter]
    simp only [Bool.and_self]
    rw [pyLower_idem]
  refine ⟨hidem, ?_⟩
  intro offices url dept ch hch
  rcases List.mem_map.mp hch with ⟨o, _, rfl⟩
  exact ⟨normalize_unit_id o.name_zh, rfl, hidem o.name_zh⟩

theorem C10_witness :
    normalize_unit_id (normalize_unit_id (lit "註 冊組")) = normalize_unit_id (lit "註 冊組") ∧
    ∃ u, ((create_location_chunks
        [{ building := lit "行政大樓", floor := lit "1樓", room := lit "106"
         , name_zh := lit "註冊組", name_en := lit "Registrar" }]
        (lit "url") (lit "admin")).get ⟨0, by decide⟩).metadata.unit_id = some u ∧
      normalize_unit_id u = u :=
  ⟨C10_normalize_idempotent.1 _,
   C10_normalize_idempotent.2 _ _ _ _ (List.get_mem _ _ _)⟩

/-! ## C5 : reranking -/

theorem apply_type_boost_eq_spec (meta : ChunkMeta) (dist : ℚ) (intent : Str) :
    apply_type_boost meta dist intent = specTypeBoost meta dist intent := by
  have hlp : lit "location" ≠ lit "phone" := by decide
  have hls : lit "location" ≠ lit "service" := by decide
  have hpl : lit "phone" ≠ lit "location" := by decide
  have hps : lit "phone" ≠ lit "service" := by decide
  have hsl : lit "service" ≠ lit "location" := by decide
  have hsp : lit "service" ≠ lit "phone" := by decide
  simp only [apply_type_boost, specTypeBoost, specDiscount]
  by_cases hl : intent = lit "location"
  · subst hl
    by_cases hc : meta.mtype.getD (lit "general") = lit "location" <;>
      simp [hc, hlp, hls]
  · by_cases hp : intent = lit "phone"
    · subst hp
      by_cases hc : meta.mtype.getD (lit "general") = lit "phone" <;>
        simp [hc, hpl, hps]
    · by_cases hs : intent = lit "service"
      · subst hs
        by_cases hc : meta.mtype.getD (lit "general") = lit "service" <;>
          simp [hc, hsl, hsp]
      · simp [hl, hp, hs]

theorem rerank_eq_pipeline (docs : List Str) (metas : List ChunkMeta) (dists : List ℚ)
    (intent : Str) (k : Nat) :
    rerank_with_intent docs metas dists intent k =
      toResult ((sortByKey (fun t => t.2.2)
        ((zip3 docs metas dists).map fun t =>
          (t.1, t.2.1, apply_type_boost t.2.1 t.2.2 intent))).take k) := by
  by_cases hd : docs.isEmpty = true
  · have hdocs : docs = [] := by
      cases docs
      · rfl
      · simp [List.isEmpty] at hd
    subst hdocs
    have hz : zip3 ([] : List Str) metas dists = [] := rfl
    rw [hz, List.map_nil]
    have hs : sortByKey (fun t : Str × ChunkMeta × ℚ => t.2.2) [] = [] := rfl
    rw [hs, List.take_nil]
    rfl
  · simp only [rerank_with_intent, if_neg hd]

theorem rerank_distances_sorted (docs : List Str) (metas : List ChunkMeta)
    (dists : List ℚ) (intent : Str) (k : Nat) :
    List.Pairwise (· ≤ ·) (rerank_with_intent docs metas dists intent k).distances := by
  rw [rerank_eq_pipeline]
  simp only [toResult]
  rw [List.pairwise_map]
  exact List.Pairwise.sublist (List.take_sublist _ _) (sortByKey_pairwise _ _)

theorem rerank_documents_length (docs : List Str) (metas : List ChunkMeta)
    (dists : List ℚ) (intent : Str) (k : Nat) :
    (rerank_with_intent docs metas dists intent k).documents.length =
      min k (zip3 docs metas dists).length := by
  rw [rerank_eq_pipeline]
  simp only [toResult, List.length_map, List.length_take]
  rw [(sortByKey_perm _ _).length_eq, List.length_map]

/-- C5: `_rerank_with_intent` gives each candidate whose chunk type equals
the intent the distance max(0, original − discount) with discount 0.2 for
location, 0.15 for phone and 0.1 for service, leaves every other distance
unchanged (`specTypeBoost`, stated in the spec's words), re-sorts all
candidates ascending by the boosted distance and truncates to the top 5. -/
theorem C5_rerank_postcondition :
    (∀ (meta : ChunkMeta) (dist : ℚ) (intent : Str),
        apply_type_boost meta dist intent = specTypeBoost meta dist intent) ∧
    (∀ (docs : List Str) (metas : List ChunkMeta) (dists : List ℚ) (intent : Str),
        rerank_with_intent docs metas dists intent 5 =
          toResult ((sortByKey (fun t => t.2.2)
            ((zip3 docs metas dists).map fun t =>
              (t.1, t.2.1, specTypeBoost t.2.1 t.2.2 intent))).take 5)) ∧
    (∀ (docs : List Str) (metas : List ChunkMeta) (dists : List ℚ) (intent : Str),
        List.Pairwise (· ≤ ·) (rerank_with_intent docs metas dists intent 5).distances) ∧
    (∀ (docs : List Str) (metas : List ChunkMeta) (dists : List ℚ) (intent : Str),
        (rerank_with_intent docs metas dists intent 5).documents.length =
          min 5 (zip3 docs metas dists).length) := by
  refine ⟨apply_type_boost_eq_spec, ?_,
    fun d m ds i => rerank_distances_sorted d m ds i 5,
    fun d m ds i => rerank_documents_length d m ds i 5⟩
  intro docs metas dists intent
  rw [rerank_eq_pipeline]
  simp only [apply_type_boost_eq_spec]

/-! ## C6 / C7 : office-location extraction -/

theorem splitOnNL_ne_nil (s : Str) : splitOnNL s ≠ [] := by
  cases s with
  | nil => simp [splitOnNL]
  | cons c cs =>
    simp only [splitOnNL]
    by_cases h : c = '\n'
    · simp [h]
    · rw [if_neg h]
      cases hs : splitOnNL cs <;> simp

theorem splitOnNL_append_nl (a b : Str) :
    splitOnNL (a ++ '\n' :: b) = splitOnNL a ++ splitOnNL b := by
  induction a with
  | nil => simp [splitOnNL]
  | cons c cs ih =>
    by_cases h : c = '\n'
    · subst h
      have h1 : splitOnNL ('\n' :: (cs ++ '\n' :: b)) = [] :: splitOnNL (cs ++ '\n' :: b) := by
        simp [splitOnNL]
      have h2 : splitOnNL ('\n' :: cs) = [] :: splitOnNL cs := by simp [splitOnNL]
      rw [List.cons_append, h1, h2, ih]
      rfl
    · rcases hcs : splitOnNL cs with _ | ⟨hh, tt⟩
      · exact absurd hcs (splitOnNL_ne_nil cs)
      · have h1 : splitOnNL (c :: (cs ++ '\n' :: b)) = (c :: hh) :: (tt ++ splitOnNL b) := by
          simp only [splitOnNL, if_neg h]
          rw [ih, hcs]
          rfl
        have h2 : splitOnNL (c :: cs) = (c :: hh) :: tt := by
          simp only [splitOnNL, if_neg h]
          rw [hcs]
        rw [List.cons_append, h1, h2]
        rfl

theorem splitOnNL_joinNL : ∀ ls : List Str, ls ≠ [] →
    splitOnNL (joinNL ls) = ls.flatMap splitOnNL := by
  intro ls
  induction ls with
  | nil => intro h; cases h rfl
  | cons l t ih =>
    intro _
    cases t with
    | nil => simp [joinNL]
    | cons l2 t2 =>
      have hj : joinNL (l :: l2 :: t2) = l ++ '\n' :: joinNL (l2 :: t2) := rfl
      rw [hj, splitOnNL_append_nl, ih (by simp)]
      simp

theorem recsOf_cons (b f l : Str) (ls : List Str) :
    recsOf b f (l :: ls) =
      (match floorMatch (pyStrip l), officeMatch (pyStrip l) with
       | some _, _ => []
       | none, some (room, zh, en) =>
         if f.isEmpty then [] else [mkOfficeRecord b f room zh en]
       | none, none => []) ++ recsOf b (stepFloor f l) ls := by
  cases hfm : floorMatch (pyStrip l) with
  | some tok =>
    have hstep : stepFloor f l = tok := by simp [stepFloor, hfm]
    simp only [recsOf, hfm, hstep]
    rfl
  | none =>
    have hstep : stepFloor f l = f := by simp [stepFloor, hfm]
    cases hom : officeMatch (pyStrip l) with
    | some r3 =>
      rcases r3 with ⟨room, zh, en⟩
      by_cases hf : f.isEmpty = true
      · simp only [recsOf, hfm, hom, if_pos hf, hstep]
        rfl
      · simp only [recsOf, hfm, hom, if_neg hf, hstep]
        rfl
    | none =>
      simp only [recsOf, hfm, hom, hstep]
      rfl

theorem floorAfter_cons (f l : Str) (ls : List Str) :
    floorAfter f (l :: ls) = floorAfter (stepFloor f l) ls := rfl

theorem recsOf_append (b : Str) : ∀ (xs ys : List Str) (f : Str),
    recsOf b f (xs ++ ys) = recsOf b f xs ++ recsOf b (floorAfter f xs) ys := by
  intro xs
  induction xs with
  | nil => intro ys f; simp [recsOf, floorAfter]
  | cons l t ih =>
    intro ys f
    rw [List.cons_append, recsOf_cons, recsOf_cons, ih, floorAfter_cons, List.append_assoc]

theorem floorAfter_no_header : ∀ (ls : List Str) (f : Str),
    (∀ l ∈ ls, floorMatch (pyStrip l) = none) → floorAfter f ls = f := by
  intro ls
  induction ls with
  | nil => intro f _; rfl
  | cons l t ih =>
    intro f h
    rw [floorAfter_cons]
    have hstep : stepFloor f l = f := by simp [stepFloor, h l (by simp)]
    rw [hstep]
    exact ih f fun l2 hl2 => h l2 (by simp [hl2])

/-- C6 (Scenario A): for any building name `b` and any surrounding lines,
running the office-location extractor on a text containing the consecutive
lines `## 1樓` and `- 106 註冊組 (Registrar)` emits the record
`{building = b, floor = "1樓", room = "106", nameZh = "註冊組",
nameEn = "Registrar"}`. -/
theorem C6_scenarioA (b : Str) (pre post : List Str) :
    ({ building := b, floor := lit "1樓", room := lit "106", name_zh := lit "註冊組"
     , name_en := lit "Registrar" } : OfficeRecord) ∈
      extract_office_locations
        (joinNL (pre ++ [lit "## 1樓", lit "- 106 註冊組 (Registrar)"] ++ post)) b := by
  have key : ∀ (f1 : Str) (ls2 : List Str),
      ({ building := b, floor := lit "1樓", room := lit "106", name_zh := lit "註冊組"
       , name_en := lit "Registrar" } : OfficeRecord) ∈
        recsOf b f1 (lit "## 1樓" :: lit "- 106 註冊組 (Registrar)" :: ls2) := by
    intro f1 ls2
    rw [recsOf_cons]
    show _ ∈ ([] : List OfficeRecord) ++
      recsOf b (lit "1樓") (lit "- 106 註冊組 (Registrar)" :: ls2)
    rw [List.nil_append, recsOf_cons]
    show _ ∈ ([{ building := b, floor := lit "1樓", room := lit "106"
               , name_zh := lit "註冊組", name_en := lit "Registrar" }] : List OfficeRecord) ++
      recsOf b (lit "1樓") ls2
    exact List.mem_append_left _ (by simp)
  unfold extract_office_locations
  rw [List.append_assoc, splitOnNL_joinNL _ (by simp), List.flatMap_append,
    List.flatMap_append]
  have hmid : ([lit "## 1樓", lit "- 106 註冊組 (Registrar)"] : List Str).flatMap splitOnNL =
      [lit "## 1樓", lit "- 106 註冊組 (Registrar)"] := by decide
  rw [hmid, recsOf_append]
  exact List.mem_append_right _ (key _ _)

theorem floorGroup_ne_nil {s tok : Str} (h : floorGroup s = some tok) : tok ≠ [] := by
  cases s with
  | nil => cases h
  | cons c cs =>
    simp only [floorGroup] at h
    by_cases hd : pyIsDigit c = true
    · rw [if_pos hd] at h
      split at h
      · split at h
        · cases h; simp
        · cases h
      · cases h
    · rw [if_neg hd] at h
      by_cases hb : c = 'B'
      · rw [if_pos hb] at h
        split at h
        · cases h
        · cases h; simp
      · rw [if_neg hb] at h; cases h

theorem floorMatch_some_ne_nil {l tok : Str} (h : floorMatch l = some tok) : tok ≠ [] := by
  unfold floorMatch at h
  split at h
  · exact floorGroup_ne_nil h
  · exact floorGroup_ne_nil h

theorem officeMatch_floorMatch {l : Str} {x : Str × Str × Option Str}
    (h : officeMatch l = some x) : floorMatch l = none := by
  unfold officeMatch at h
  split at h
  · rfl
  · cases h

theorem recsOf_floor_ne_nil (b : Str) : ∀ (ls : List Str) (f : Str) (r : OfficeRecord),
    r ∈ recsOf b f ls → r.floor ≠ [] := by
  intro ls
  induction ls with
  | nil => intro f r hr; cases hr
  | cons l t ih =>
    intro f r hr
    rw [recsOf_cons] at hr
    rcases List.mem_append.mp hr with h1 | h2
    · cases hfm : floorMatch (pyStrip l) with
      | some tok => rw [hfm] at h1; simp at h1
      | none =>
        rw [hfm] at h1
        cases hom : officeMatch (pyStrip l) with
        | none => rw [hom] at h1; simp at h1
        | some r3 =>
          rcases r3 with ⟨room, zh, en⟩
          rw [hom] at h1
          by_cases hf : f.isEmpty = true
          · simp [hf] at h1
          · simp [hf] at h1
            subst h1
            show f ≠ []
            intro h0
            exact hf (by simp [h0])
    · exact ih _ r h2

/-- C7: the office-location extractor is total (a Lean function by
construction: it returns on every input), every emitted record carries a
non-empty floor, a prefix without any floor header contributes nothing
(office entries before any floor header emit no record), an unmatched line
can be removed without changing the output, and an office entry after a
floor header with no intervening header emits a record carrying exactly that
header's token (the most recent preceding floor). -/
theorem C7_extractor_invariants :
    (∀ (content b : Str) (r : OfficeRecord),
        r ∈ extract_office_locations content b → r.floor ≠ []) ∧
    (∀ (b : Str) (pre rest : List Str), (∀ l ∈ pre, floorMatch (pyStrip l) = none) →
        recsOf b [] (pre ++ rest) = recsOf b [] rest) ∧
    (∀ (b f : Str) (ls1 ls2 : List Str) (l : Str), floorMatch (pyStrip l) = none →
        officeMatch (pyStrip l) = none →
        recsOf b f (ls1 ++ l :: ls2) = recsOf b f (ls1 ++ ls2)) ∧
    (∀ (b f hline tok off room zh : Str) (en : Option Str) (pre mid post : List Str),
        floorMatch (pyStrip hline) = some tok →
        (∀ l ∈ mid, floorMatch (pyStrip l) = none) →
        officeMatch (pyStrip off) = some (room, zh, en) →
        mkOfficeRecord b tok room zh en ∈
          recsOf b f (pre ++ hline :: (mid ++ off :: post))) := by
  refine ⟨?_, ?_, ?_, ?_⟩
  · intro content b r hr
    exact recsOf_floor_ne_nil b _ [] r hr
  · intro b pre rest
    induction pre with
    | nil => intro _; rfl
    | cons l t ih =>
      intro h
      have hfm := h l (by simp)
      have hstep : stepFloor [] l = [] := by simp [stepFloor, hfm]
      rw [List.cons_append, recsOf_cons, hfm, hstep]
      cases hom : officeMatch (pyStrip l) with
      | some r3 =>
        rcases r3 with ⟨a1, a2, a3⟩
        show recsOf b [] (t ++ rest) = recsOf b [] rest
        exact ih fun l2 hl2 => h l2 (by simp [hl2])
      | none =>
        show recsOf b [] (t ++ rest) = recsOf b [] rest
        exact ih fun l2 hl2 => h l2 (by simp [hl2])
  · intro b f ls1 ls2 l hfl hom
    rw [recsOf_append, recsOf_append, recsOf_cons, hfl, hom]
    have hstep : stepFloor (floorAfter f ls1) l = floorAfter f ls1 := by
      simp [stepFloor, hfl]
    rw [hstep]
    simp
  · intro b f hline tok off room zh en pre mid post hfl hmid hoff
    rw [recsOf_append]
    apply List.mem_append_right
    rw [recsOf_cons, hfl]
    have hstep : stepFloor (floorAfter f pre) hline = tok := by simp [stepFloor, hfl]
    rw [hstep]
    simp only [List.nil_append]
    rw [recsOf_append, floorAfter_no_header mid tok hmid]
    apply List.mem_append_right
    rw [recsOf_cons, officeMatch_floorMatch hoff, hoff]
    have htokE : tok.isEmpty = false := by
      have := floorMatch_some_ne_nil hfl
      cases tok
      · cases this rfl
      · rfl
    simp [htokE]

theorem C7_witness :
    (mkOfficeRecord (lit "b") (lit "2樓") (lit "12") (lit "福利社") none).floor ≠ [] ∧
    recsOf (lit "b") [] ([lit "hello"] ++ [lit "## 2樓"]) =
      recsOf (lit "b") [] [lit "## 2樓"] ∧
    recsOf (lit "b") [] ([lit "## 2樓"] ++ lit "hello" :: [lit "- 12 福利社"]) =
      recsOf (lit "b") [] ([lit "## 2樓"] ++ [lit "- 12 福利社"]) ∧
    mkOfficeRecord (lit "b") (lit "2樓") (lit "12") (lit "福利社") none ∈
      extract_office_locations (lit "## 2樓\n- 12 福利社") (lit "b") := by
  have h4 := C7_extractor_invariants.2.2.2 (lit "b") [] (lit "## 2樓") (lit "2樓")
    (lit "- 12 福利社") (lit "12") (lit "福利社") none [] [] [] (by decide)
    (by intro l hl; cases hl) (by decide)
  have hmem : mkOfficeRecord (lit "b") (lit "2樓") (lit "12") (lit "福利社") none ∈
      extract_office_locations (lit "## 2樓\n- 12 福利社") (lit "b") := h4
  refine ⟨C7_extractor_invariants.1 _ _ _ hmem, ?_, ?_, hmem⟩
  · exact C7_extractor_invariants.2.1 (lit "b") [lit "hello"] [lit "## 2樓"]
      (by intro l hl; simp at hl; subst hl; decide)
  · exact C7_extractor_invariants.2.2.1 (lit "b") [] [lit "## 2樓"] [lit "- 12 福利社"]
      (lit "hello") (by decide) (by decide)

/-! ## C3 : dedup invariant -/

theorem dedupMerge_inv (items : List (Str × ChunkMeta × ℚ))
    (acc : List (Str × ChunkMeta × ℚ) × List Str)
    (h : (∀ t ∈ acc.1, fpStr t.2.1 t.1 ∈ acc.2) ∧
      acc.1.Pairwise fun x y => fpStr x.2.1 x.1 ≠ fpStr y.2.1 y.1) :
    (∀ t ∈ (dedupMerge acc items).1, fpStr t.2.1 t.1 ∈ (dedupMerge acc items).2) ∧
      (dedupMerge acc items).1.Pairwise
        fun x y => fpStr x.2.1 x.1 ≠ fpStr y.2.1 y.1 := by
  unfold dedupMerge
  refine @foldl_inv _ _
    (fun a => (∀ t ∈ a.1, fpStr t.2.1 t.1 ∈ a.2) ∧
      a.1.Pairwise fun x y => fpStr x.2.1 x.1 ≠ fpStr y.2.1 y.1)
    _ items acc h ?_
  intro a t _ ha
  by_cases hf : fpStr t.2.1 t.1 ∈ a.2
  · rw [if_pos hf]; exact ha
  · rw [if_neg hf]
    constructor
    · intro t2 ht2
      rcases List.mem_append.mp ht2 with h1 | h1
      · exact List.mem_append_left _ (ha.1 t2 h1)
      · simp only [List.mem_singleton] at h1
        subst h1
        exact List.mem_append_right _ (by simp)
    · rw [List.pairwise_append]
      refine ⟨ha.2, by simp, ?_⟩
      intro x hx y hy
      simp only [List.mem_singleton] at hy
      subst hy
      intro heq
      exact hf (heq ▸ ha.1 x hx)

theorem fpStr_ne_of_fpTuple_imp {d1 d2 : Str} {m1 m2 : ChunkMeta}
    (h : fpTuple d1 m1 = fpTuple d2 m2) : fpStr m1 d1 = fpStr m2 d2 := by
  simp only [fpTuple, Prod.mk.injEq] at h
  simp only [fpStr, h.1, h.2.1, h.2.2]

theorem pairwiseFp_sort_take {l : List (Str × ChunkMeta × ℚ)}
    (h : l.Pairwise fun x y => fpStr x.2.1 x.1 ≠ fpStr y.2.1 y.1)
    (key : Str × ChunkMeta × ℚ → ℚ) (n : Nat) :
    ((sortByKey key l).take n).Pairwise
      fun x y => fpStr x.2.1 x.1 ≠ fpStr y.2.1 y.1 := by
  refine List.Pairwise.sublist (List.take_sublist _ _) ?_
  exact (@List.Perm.pairwise_iff (Str × ChunkMeta × ℚ)
    (fun x y => fpStr x.2.1 x.1 ≠ fpStr y.2.1 y.1) (fun hab => Ne.symm hab) _ _
    (sortByKey_perm key l)).mpr h

theorem pairwiseFp_toResult {ts : List (Str × ChunkMeta × ℚ)}
    (h : ts.Pairwise fun x y => fpStr x.2.1 x.1 ≠ fpStr y.2.1 y.1) :
    pairwiseDistinctFp (resultPairs (toResult ts)) := by
  rw [pairwiseDistinctFp, resultPairs_toResult, List.pairwise_map]
  exact h.imp fun hne heq => hne (fpStr_ne_of_fpTuple_imp heq)

theorem stage2_merged_pairwise (es : List StoreEntry) (unit_names unit_ids : List Str)
    (query : Str) (n : Nat) :
    ((unit_ids.foldl
        (fun a u =>
          dedupMerge a (queryTriples (storeQuery es query n (some (.unitId u)))))
        ([], [])).1.Pairwise fun x y => fpStr x.2.1 x.1 ≠ fpStr y.2.1 y.1) ∧
    (∀ a2, ((∀ t ∈ a2.1, fpStr t.2.1 t.1 ∈ a2.2) ∧
        a2.1.Pairwise fun x y => fpStr x.2.1 x.1 ≠ fpStr y.2.1 y.1) →
      ((unit_names.foldl
        (fun a un =>
          dedupMerge a (queryTriples (storeQuery es (un ++ lit " " ++ query) n none)))
        a2).1.Pairwise fun x y => fpStr x.2.1 x.1 ≠ fpStr y.2.1 y.1)) := by
  constructor
  · have h := @foldl_inv _ _
      (fun a => (∀ t ∈ a.1, fpStr t.2.1 t.1 ∈ a.2) ∧
        a.1.Pairwise fun x y => fpStr x.2.1 x.1 ≠ fpStr y.2.1 y.1)
      (fun a u =>
        dedupMerge a (queryTriples (storeQuery es query n (some (.unitId u)))))
      unit_ids ([], []) ⟨by simp, by simp⟩
      (fun a u _ ha => dedupMerge_inv _ a ha)
    exact h.2
  · intro a2 ha2
    have h := @foldl_inv _ _
      (fun a => (∀ t ∈ a.1, fpStr t.2.1 t.1 ∈ a.2) ∧
        a.1.Pairwise fun x y => fpStr x.2.1 x.1 ≠ fpStr y.2.1 y.1)
      (fun a un =>
        dedupMerge a (queryTriples (storeQuery es (un ++ lit " " ++ query) n none)))
      unit_names a2 ha2
      (fun a un _ ha => dedupMerge_inv _ a ha)
    exact h.2

theorem retrieve_stage2_pairwise (es : List StoreEntry) (unit_names unit_ids : List Str)
    (query : Str) (n : Nat) :
    ∃ merged : List (Str × ChunkMeta × ℚ),
      retrieve_stage2 es unit_names unit_ids query n =
        toResult ((sortByKey (fun t => t.2.2) merged).take n) ∧
      merged.Pairwise fun x y => fpStr x.2.1 x.1 ≠ fpStr y.2.1 y.1 := by
  have hstep1 := @foldl_inv _ _
    (fun a => (∀ t ∈ a.1, fpStr t.2.1 t.1 ∈ a.2) ∧
      a.1.Pairwise fun x y => fpStr x.2.1 x.1 ≠ fpStr y.2.1 y.1)
    (fun a u => dedupMerge a (queryTriples (storeQuery es query n (some (.unitId u)))))
    unit_ids ([], []) ⟨by simp, by simp⟩
    (fun a u _ ha => dedupMerge_inv _ a ha)
  unfold retrieve_stage2
  refine ⟨_, rfl, ?_⟩
  split
  · exact ((stage2_merged_pairwise es unit_names unit_ids query n).2 _ hstep1)
  · exact hstep1.2

/-- C3 (amended): the result of `retrieve_stage2` contains no two entries
with the same (url, title, first-80-characters) fingerprint, and intent
reranking of that result preserves the property; the full `retrieve` output
can violate it (single-stage results are never deduplicated, and the
augmentation step dedups only by a 100-character document prefix), as
`C3_counterexample` shows. -/
theorem C3_dedup_amended :
    ∀ (es : List StoreEntry) (unit_names unit_ids : List Str) (query : Str) (n : Nat)
      (intent : Str),
      pairwiseDistinctFp (resultPairs (retrieve_stage2 es unit_names unit_ids query n)) ∧
      pairwiseDistinctFp (resultPairs
        (rerank_with_intent (retrieve_stage2 es unit_names unit_ids query n).documents
          (retrieve_stage2 es unit_names unit_ids query n).metadatas
          (retrieve_stage2 es unit_names unit_ids query n).distances intent 5)) := by
  intro es unit_names unit_ids query n intent
  rcases retrieve_stage2_pairwise es unit_names unit_ids query n with ⟨merged, heq, hpw⟩
  rw [heq]
  have hsel := pairwiseFp_sort_take hpw (fun t => t.2.2) n
  refine ⟨pairwiseFp_toResult hsel, ?_⟩
  rw [rerank_eq_pipeline]
  have hz : zip3
      (toResult ((sortByKey (fun t : Str × ChunkMeta × ℚ => t.2.2) merged).take n)).documents
      (toResult ((sortByKey (fun t : Str × ChunkMeta × ℚ => t.2.2) merged).take n)).metadatas
      (toResult ((sortByKey (fun t : Str × ChunkMeta × ℚ => t.2.2) merged).take n)).distances =
      (sortByKey (fun t : Str × ChunkMeta × ℚ => t.2.2) merged).take n :=
    queryTriples_toResult _
  rw [hz]
  have hboost : (((sortByKey (fun t : Str × ChunkMeta × ℚ => t.2.2) merged).take n).map
      (fun t => (t.1, t.2.1, apply_type_boost t.2.1 t.2.2 intent))).Pairwise
      (fun x y => fpStr x.2.1 x.1 ≠ fpStr y.2.1 y.1) := by
    rw [List.pairwise_map]
    exact hsel
  exact pairwiseFp_toResult (pairwiseFp_sort_take hboost _ 5)

/-- C3 counterexample: with two stored chunks sharing url, title and text,
a query that resolves no unit takes the single-stage path and returns both,
so the final RetrievalResult holds two entries with equal fingerprints. -/
theorem C3_counterexample :
    (retrieve c3store (lit "q") true).documents = [lit "hello", lit "hello"] ∧
    ¬ pairwiseDistinctFp (resultPairs (retrieve c3store (lit "q") true)) := by
  refine ⟨by decide, ?_⟩
  intro hpw
  have h1 : resultPairs (retrieve c3store (lit "q") true) =
      [(lit "hello", ({} : ChunkMeta)), (lit "hello", ({} : ChunkMeta))] := by decide
  rw [pairwiseDistinctFp, h1] at hpw
  rcases List.pairwise_cons.mp hpw with ⟨hhead, _⟩
  exact hhead _ (by simp) rfl

/-! ## C4 : result shape -/

theorem toResult_lengths (ts : List (Str × ChunkMeta × ℚ)) :
    (toResult ts).documents.length = (toResult ts).metadatas.length ∧
      (toResult ts).metadatas.length = (toResult ts).distances.length := by
  simp [toResult]

theorem zip3_mem {α β γ : Type} :
    ∀ {a : List α} {b : List β} {c : List γ} {t : α × β × γ},
      t ∈ zip3 a b c → t.1 ∈ a ∧ t.2.1 ∈ b ∧ t.2.2 ∈ c := by
  intro a
  induction a with
  | nil => intro b c t ht; cases ht
  | cons x l ih =>
    intro b c t ht
    cases b with
    | nil => cases ht
    | cons y m =>
      cases c with
      | nil => cases ht
      | cons z o =>
        rcases List.mem_cons.mp ht with rfl | h2
        · exact ⟨by simp, by simp, by simp⟩
        · rcases ih h2 with ⟨h3, h4, h5⟩
          exact ⟨by simp [h3], by simp [h4], by simp [h5]⟩

theorem storeQuery_dist_mem {es : List StoreEntry} {qt : Str} {n : Nat}
    {f : Option WhereFilter} {d : ℚ} (hd : d ∈ (storeQuery es qt n f).distances) :
    ∃ e ∈ es, d = e.dist qt := by
  have hds : (storeQuery es qt n f).distances =
      (queryTriples (storeQuery es qt n f)).map fun t => t.2.2 := by
    conv_rhs => rw [queryTriples_storeQuery]
    rfl
  rw [hds] at hd
  rcases List.mem_map.mp hd with ⟨t, ht, rfl⟩
  rcases mem_storeQuery ht with ⟨e, he, heq, _⟩
  exact ⟨e, he, by rw [heq]⟩

theorem apply_type_boost_nonneg {m : ChunkMeta} {d : ℚ} {i : Str} (hd : 0 ≤ d) :
    0 ≤ apply_type_boost m d i := by
  show 0 ≤
    (if i = lit "location" ∧ m.mtype.getD (lit "general") = lit "location" then
      max 0 (d - 0.2)
    else if i = lit "phone" ∧ m.mtype.getD (lit "general") = lit "phone" then
      max 0 (d - 0.15)
    else if i = lit "service" ∧ m.mtype.getD (lit "general") = lit "service" then
      max 0 (d - 0.1)
    else d)
  split_ifs <;> first | exact le_max_left 0 _ | exact hd

theorem rerank_dist_mem {docs : List Str} {metas : List ChunkMeta} {dists : List ℚ}
    {intent : Str} {k : Nat} {d : ℚ}
    (hd : d ∈ (rerank_with_intent docs metas dists intent k).distances) :
    ∃ d0 ∈ dists, ∃ m, d = apply_type_boost m d0 intent := by
  rw [rerank_eq_pipeline] at hd
  have hds : (toResult ((sortByKey (fun t : Str × ChunkMeta × ℚ => t.2.2)
      ((zip3 docs metas dists).map fun t =>
        (t.1, t.2.1, apply_type_boost t.2.1 t.2.2 intent))).take k)).distances =
      ((sortByKey (fun t : Str × ChunkMeta × ℚ => t.2.2)
        ((zip3 docs metas dists).map fun t =>
          (t.1, t.2.1, apply_type_boost t.2.1 t.2.2 intent))).take k).map
        fun t => t.2.2 := rfl
  rw [hds] at hd
  rcases List.mem_map.mp hd with ⟨t, ht, rfl⟩
  have ht2 := mem_sortByKey.mp ((List.take_sublist _ _).subset ht)
  rcases List.mem_map.mp ht2 with ⟨t0, ht0, rfl⟩
  exact ⟨t0.2.2, (zip3_mem ht0).2.2, t0.2.1, rfl⟩

theorem dedupMerge_mem : ∀ (items : List (Str × ChunkMeta × ℚ))
    (acc : List (Str × ChunkMeta × ℚ) × List Str) {t : Str × ChunkMeta × ℚ},
    t ∈ (dedupMerge acc items).1 → t ∈ acc.1 ∨ t ∈ items := by
  intro items
  induction items with
  | nil => intro acc t ht; exact Or.inl ht
  | cons x l ih =>
    intro acc t ht
    have ht2 : t ∈ (dedupMerge
        (if fpStr x.2.1 x.1 ∈ acc.2 then acc else (acc.1 ++ [x], acc.2 ++ [fpStr x.2.1 x.1]))
        l).1 := ht
    rcases ih _ ht2 with h | h
    · by_cases hf : fpStr x.2.1 x.1 ∈ acc.2
      · rw [if_pos hf] at h
        exact Or.inl h
      · rw [if_neg hf] at h
        rcases List.mem_append.mp h with h2 | h2
        · exact Or.inl h2
        · simp only [List.mem_singleton] at h2
          subst h2
          exact Or.inr (by simp)
    · exact Or.inr (by simp [h])

theorem stage2_triple_mem {es : List StoreEntry} {unit_names unit_ids : List Str}
    {query : Str} {n : Nat} {t : Str × ChunkMeta × ℚ}
    (ht : t ∈ queryTriples (retrieve_stage2 es unit_names unit_ids query n)) :
    ∃ e ∈ es, ∃ qt : Str, t = (e.doc, e.meta, e.dist qt) := by
  have hinv := @foldl_inv _ _
    (fun a : List (Str × ChunkMeta × ℚ) × List Str =>
      ∀ t2 ∈ a.1, ∃ e ∈ es, ∃ qt : Str, t2 = (e.doc, e.meta, e.dist qt))
    (fun a u => dedupMerge a (queryTriples (storeQuery es query n (some (.unitId u)))))
    unit_ids ([], []) (by simp)
    (fun a u _ ha t2 ht2 => by
      rcases dedupMerge_mem _ _ ht2 with h | h
      · exact ha t2 h
      · rcases mem_storeQuery h with ⟨e, he, heq, _⟩
        exact ⟨e, he, query, heq⟩)
  rw [retrieve_stage2] at ht
  rw [queryTriples_toResult] at ht
  have ht3 := mem_sortByKey.mp ((List.take_sublist _ _).subset ht)
  revert ht3
  split
  · intro ht3
    have hinv2 := @foldl_inv _ _
      (fun a : List (Str × ChunkMeta × ℚ) × List Str =>
        ∀ t2 ∈ a.1, ∃ e ∈ es, ∃ qt : Str, t2 = (e.doc, e.meta, e.dist qt))
      (fun a un =>
        dedupMerge a (queryTriples (storeQuery es (un ++ lit " " ++ query) n none)))
      unit_names _ hinv
      (fun a un _ ha t2 ht2 => by
        rcases dedupMerge_mem _ _ ht2 with h | h
        · exact ha t2 h
        · rcases mem_storeQuery h with ⟨e, he, heq, _⟩
          exact ⟨e, he, un ++ lit " " ++ query, heq⟩)
    exact hinv2 t ht3
  · intro ht3
    exact hinv t ht3

theorem augStep_spec (es : List StoreEntry) (r : RetrievalResult)
    (f : Option WhereFilter) (qtext : Str) (a : AugAcc) (ha : augSpec es r a) :
    augSpec es r (augStep es f qtext a) := by
  unfold augStep
  refine @foldl_inv _ _ (augSpec es r)
    (fun (a2 : AugAcc) (t : Str × ChunkMeta × ℚ) =>
      if t.2.1.mtype = some (lit "location") then augAppend a2 t.1 t.2.1 t.2.2 else a2)
    _ a ha ?_
  intro a2 t htmem ha2
  dsimp only
  by_cases hloc : t.2.1.mtype = some (lit "location")
  · rw [if_pos hloc]
    unfold augAppend
    by_cases hseen : t.1.take 100 ∈ a2.seen
    · rw [if_pos hseen]; exact ha2
    · rw [if_neg hseen]
      rcases ha2 with ⟨td, tm, tq, h1, h2, h3, h4, h5, h6, h7⟩
      refine ⟨td ++ [t.1], tm ++ [t.2.1], tq ++ [t.2.2], ?_, ?_, ?_, ?_, ?_, ?_, ?_⟩
      · simp [h1]
      · simp [h2]
      · simp [h3]
      · simp [h4]
      · simp [h5]
      · intro m hm
        rcases List.mem_append.mp hm with hm | hm
        · exact h6 m hm
        · simp only [List.mem_singleton] at hm
          subst hm
          exact hloc
      · intro d hdm
        rcases List.mem_append.mp hdm with hdm | hdm
        · exact h7 d hdm
        · simp only [List.mem_singleton] at hdm
          subst hdm
          rcases mem_storeQuery htmem with ⟨e, he, heq, _⟩
          exact ⟨e, he, qtext, by rw [heq]⟩
  · rw [if_neg hloc]; exact ha2

theorem append_location_chunks_spec (es : List StoreEntry) (r : RetrievalResult)
    (unit_ids unit_names : List Str) :
    ∃ td tm tq,
      (append_location_chunks es r unit_ids unit_names).documents = r.documents ++ td ∧
      (append_location_chunks es r unit_ids unit_names).metadatas = r.metadatas ++ tm ∧
      (append_location_chunks es r unit_ids unit_names).distances = r.distances ++ tq ∧
      td.length = tm.length ∧ tm.length = tq.length ∧
      (∀ m ∈ tm, m.mtype = some (lit "location")) ∧
      (∀ d ∈ tq, ∃ e ∈ es, ∃ qt : Str, d = e.dist qt) := by
  have h0 : augSpec es r
      ⟨r.documents, r.metadatas, r.distances, r.documents.map fun d => d.take 100⟩ :=
    ⟨[], [], [], by simp, by simp, by simp, rfl, rfl, by simp, by simp⟩
  have h1 := @foldl_inv _ _ (augSpec es r)
    (fun a u => augStep es (some (.unitIdLoc u)) u a) unit_ids _ h0
    (fun a u _ ha => augStep_spec es r _ _ a ha)
  obtain ⟨td, tm, tq, hd, hm, hq, hl1, hl2, hloc, hprov⟩ :
      augSpec es r
        (if unit_ids.isEmpty = true
         then unit_names.foldl (fun a un => augStep es none un a)
           (unit_ids.foldl (fun a u => augStep es (some (.unitIdLoc u)) u a)
             ⟨r.documents, r.metadatas, r.distances, r.documents.map fun d => d.take 100⟩)
         else unit_ids.foldl (fun a u => augStep es (some (.unitIdLoc u)) u a)
           ⟨r.documents, r.metadatas, r.distances, r.documents.map fun d => d.take 100⟩) := by
    split
    · exact @foldl_inv _ _ (augSpec es r) (fun a un => augStep es none un a)
        unit_names _ h1 (fun a un _ ha => augStep_spec es r _ _ a ha)
    · exact h1
  exact ⟨td, tm, tq, hd, hm, hq, hl1, hl2, hloc, hprov⟩

theorem toResult_distances_eq (ts : List (Str × ChunkMeta × ℚ)) :
    (toResult ts).distances = (queryTriples (toResult ts)).map fun t => t.2.2 := by
  rw [queryTriples_toResult]
  rfl

theorem stage2_dist_mem {es : List StoreEntry} {unit_names unit_ids : List Str}
    {query : Str} {n : Nat} {d : ℚ}
    (hd : d ∈ (retrieve_stage2 es unit_names unit_ids query n).distances) :
    ∃ e ∈ es, ∃ qt : Str, d = e.dist qt := by
  rcases retrieve_stage2_pairwise es unit_names unit_ids query n with ⟨merged, heq, _⟩
  have hmap : (retrieve_stage2 es unit_names unit_ids query n).distances =
      (queryTriples (retrieve_stage2 es unit_names unit_ids query n)).map
        fun t => t.2.2 := by
    rw [heq]
    exact toResult_distances_eq _
  rw [hmap] at hd
  rcases List.mem_map.mp hd with ⟨t, ht, rfl⟩
  rcases stage2_triple_mem ht with ⟨e, he, qt, heq2⟩
  exact ⟨e, he, qt, by rw [heq2]⟩

theorem rerank_lengths (docs : List Str) (metas : List ChunkMeta) (dists : List ℚ)
    (intent : Str) (k : Nat) :
    (rerank_with_intent docs metas dists intent k).documents.length =
      (rerank_with_intent docs metas dists intent k).metadatas.length ∧
    (rerank_with_intent docs metas dists intent k).metadatas.length =
      (rerank_with_intent docs metas dists intent k).distances.length := by
  rw [rerank_eq_pipeline]
  exact toResult_lengths _

theorem retrieve_true_eq (es : List StoreEntry) (query : Str) :
    retrieve es query true =
      (if ((resolvedUnitNames (retrieve_stage1 es query 5).documents
            (retrieve_stage1 es query 5).metadatas).isEmpty &&
          (resolvedUnitIds (retrieve_stage1 es query 5).metadatas).isEmpty) = true
       then retrieve_with_priority es query (get_query_intent query)
       else
         append_location_chunks es
           (rerank_with_intent
             (retrieve_stage2 es
               (resolvedUnitNames (retrieve_stage1 es query 5).documents
                 (retrieve_stage1 es query 5).metadatas)
               (resolvedUnitIds (retrieve_stage1 es query 5).metadatas)
               query 10).documents
             (retrieve_stage2 es
               (resolvedUnitNames (retrieve_stage1 es query 5).documents
                 (retrieve_stage1 es query 5).metadatas)
               (resolvedUnitIds (retrieve_stage1 es query 5).metadatas)
               query 10).metadatas
             (retrieve_stage2 es
               (resolvedUnitNames (retrieve_stage1 es query 5).documents
                 (retrieve_stage1 es query 5).metadatas)
               (resolvedUnitIds (retrieve_stage1 es query 5).metadatas)
               query 10).distances
             (get_query_intent query) 5)
           (resolvedUnitIds (retrieve_stage1 es query 5).metadatas)
           (resolvedUnitNames (retrieve_stage1 es query 5).documents
             (retrieve_stage1 es query 5).metadatas)) := rfl

/-- C4 (amended): every RetrievalResult returned by `retrieve` consists of
three parallel sequences of equal length, and all returned distances are
non-negative when the store's distances are; the single-stage result is
sorted ascending; the two-stage result is sorted ascending only up to a
suffix of appended location chunks — the augmentation step appends location
chunks with their original store distances after reranking, so the full
two-stage result need not be sorted (see `C4_counterexample`). -/
theorem C4_result_shape :
    ∀ (es : List StoreEntry) (query : Str),
      ((retrieve es query true).documents.length =
          (retrieve es query true).metadatas.length ∧
        (retrieve es query true).metadatas.length =
          (retrieve es query true).distances.length) ∧
      ((retrieve es query false).documents.length =
          (retrieve es query false).metadatas.length ∧
        (retrieve es query false).metadatas.length =
          (retrieve es query false).distances.length) ∧
      ((∀ e ∈ es, ∀ t : Str, 0 ≤ e.dist t) →
        (∀ d ∈ (retrieve es query true).distances, 0 ≤ d) ∧
        (∀ d ∈ (retrieve es query false).distances, 0 ≤ d)) ∧
      List.Pairwise (· ≤ ·) (retrieve es query false).distances ∧
      ∃ k, List.Pairwise (· ≤ ·) ((retrieve es query true).distances.take k) ∧
        ∀ m ∈ (retrieve es query true).metadatas.drop k,
          m.mtype = some (lit "location") := by
  intro es query
  have hfalse : retrieve es query false =
      rerank_with_intent (storeQuery es query 15 none).documents
        (storeQuery es query 15 none).metadatas
        (storeQuery es query 15 none).distances (get_query_intent query) 5 := rfl
  have hwp : retrieve_with_priority es query (get_query_intent query) =
      rerank_with_intent (storeQuery es query 15 none).documents
        (storeQuery es query 15 none).metadatas
        (storeQuery es query 15 none).distances (get_query_intent query) 5 := rfl
  rw [retrieve_true_eq es query, hfalse, hwp]
  generalize (resolvedUnitNames (retrieve_stage1 es query 5).documents
    (retrieve_stage1 es query 5).metadatas) = names
  generalize (resolvedUnitIds (retrieve_stage1 es query 5).metadatas) = ids
  generalize (get_query_intent query) = intent
  have hslen := rerank_lengths (storeQuery es query 15 none).documents
    (storeQuery es query 15 none).metadatas (storeQuery es query 15 none).distances
    intent 5
  have hssort := rerank_distances_sorted (storeQuery es query 15 none).documents
    (storeQuery es query 15 none).metadatas (storeQuery es query 15 none).distances
    intent 5
  have hsnn : (∀ e ∈ es, ∀ t : Str, 0 ≤ e.dist t) →
      ∀ d ∈ (rerank_with_intent (storeQuery es query 15 none).documents
        (storeQuery es query 15 none).metadatas
        (storeQuery es query 15 none).distances intent 5).distances, 0 ≤ d := by
    intro hnn d hd
    rcases rerank_dist_mem hd with ⟨d0, hd0, m, rfl⟩
    rcases storeQuery_dist_mem hd0 with ⟨e, he, rfl⟩
    exact apply_type_boost_nonneg (hnn e he query)
  by_cases hcond : (names.isEmpty && ids.isEmpty) = true
  · rw [if_pos hcond]
    refine ⟨hslen, hslen, fun hnn => ⟨hsnn hnn, hsnn hnn⟩, hssort, ?_⟩
    refine ⟨(rerank_with_intent (storeQuery es query 15 none).documents
      (storeQuery es query 15 none).metadatas
      (storeQuery es query 15 none).distances intent 5).distances.length, ?_, ?_⟩
    · rw [List.take_length]
      exact hssort
    · rw [← hslen.2, List.drop_length]
      intro m hm
      cases hm
  · rw [if_neg hcond]
    have hrl := rerank_lengths (retrieve_stage2 es names ids query 10).documents
      (retrieve_stage2 es names ids query 10).metadatas
      (retrieve_stage2 es names ids query 10).distances intent 5
    rcases append_location_chunks_spec es
        (rerank_with_intent (retrieve_stage2 es names ids query 10).documents
          (retrieve_stage2 es names ids query 10).metadatas
          (retrieve_stage2 es names ids query 10).distances intent 5) ids names
      with ⟨td, tm, tq, hd, hm, hq, hl1, hl2, hloc, hprov⟩
    rw [hd, hm, hq]
    constructor
    · simp only [List.length_append]
      omega
    constructor
    · exact hslen
    constructor
    · intro hnn
      refine ⟨?_, hsnn hnn⟩
      intro d hdm
      rcases List.mem_append.mp hdm with hdm | hdm
      · rcases rerank_dist_mem hdm with ⟨d0, hd0, m, rfl⟩
        rcases stage2_dist_mem hd0 with ⟨e, he, qt, rfl⟩
        exact apply_type_boost_nonneg (hnn e he qt)
      · rcases hprov d hdm with ⟨e, he, qt, rfl⟩
        exact hnn e he qt
    constructor
    · exact hssort
    · refine ⟨(rerank_with_intent (retrieve_stage2 es names ids query 10).documents
        (retrieve_stage2 es names ids query 10).metadatas
        (retrieve_stage2 es names ids query 10).distances intent 5).distances.length,
        ?_, ?_⟩
      · rw [List.take_left]
        exact rerank_distances_sorted _ _ _ _ _
      · rw [← hrl.2, List.drop_left]
        exact hloc

/-- C4 counterexample: on `c4store` the two-stage `retrieve` returns
distances [1, 3, 2] — the location chunk appended by augmentation carries
its original store distance 2, after the reranked (sorted) prefix [1, 3] —
so the returned distances are not sorted ascending. -/
theorem C4_counterexample :
    (retrieve c4store (lit "q") true).distances = [1, 3, 2] ∧
    ¬ List.Pairwise (· ≤ ·) (retrieve c4store (lit "q") true).distances := by
  refine ⟨by decide, ?_⟩
  intro hpw
  rw [show (retrieve c4store (lit "q") true).distances = [(1 : ℚ), 3, 2] from by decide]
    at hpw
  rcases List.pairwise_cons.mp hpw with ⟨_, hpw2⟩
  rcases List.pairwise_cons.mp hpw2 with ⟨h32, _⟩
  have h := h32 2 (by simp)
  norm_num at h

theorem C4_witness :
    ((retrieve c4wstore (lit "q") true).documents.length =
      (retrieve c4wstore (lit "q") true).metadatas.length) ∧
    (∀ d ∈ (retrieve c4wstore (lit "q") true).distances, 0 ≤ d) ∧
    List.Pairwise (· ≤ ·) (retrieve c4wstore (lit "q") false).distances := by
  have h := C4_result_shape c4wstore (lit "q")
  have hnn : ∀ e ∈ c4wstore, ∀ t : Str, 0 ≤ e.dist t := by
    intro e he t
    rcases List.mem_singleton.mp he with rfl
    exact zero_le_one
  exact ⟨h.1.1, (h.2.2.1 hnn).1, h.2.2.2.1⟩

/-! ## C2 : location-coverage of the two-stage path -/

theorem forall₂_mem_left {α β : Type} {P : α → β → Prop} :
    ∀ {a : List α} {b : List β}, List.Forall₂ P a b →
      ∀ {x : α}, x ∈ a → ∃ y : β, (x, y) ∈ a.zip b ∧ P x y := by
  intro a b h
  induction h with
  | nil => intro x hx; cases hx
  | cons hpq hrest ih =>
    intro x hx
    rcases List.mem_cons.mp hx with rfl | hx2
    · exact ⟨_, by simp [List.zip_cons_cons], hpq⟩
    · rcases ih hx2 with ⟨y, hy, hP⟩
      exact ⟨y, by simp [List.zip_cons_cons, hy], hP⟩

theorem resultProv_toResult (es : List StoreEntry) :
    ∀ ts : List (Str × ChunkMeta × ℚ),
      (∀ t ∈ ts, entryPairProv es (t.1, t.2.1)) → resultProv es (toResult ts) := by
  intro ts
  induction ts with
  | nil => intro _; exact List.Forall₂.nil
  | cons t l ih =>
    intro h
    exact List.Forall₂.cons (h t (by simp)) (ih fun t2 ht2 => h t2 (by simp [ht2]))

theorem resultProv_stage2 (es : List StoreEntry) (unit_names unit_ids : List Str)
    (query : Str) (n : Nat) :
    resultProv es (retrieve_stage2 es unit_names unit_ids query n) := by
  rcases retrieve_stage2_pairwise es unit_names unit_ids query n with ⟨merged, heq, _⟩
  rw [heq]
  apply resultProv_toResult
  intro t ht
  have ht2 : t ∈ queryTriples (retrieve_stage2 es unit_names unit_ids query n) := by
    rw [heq, queryTriples_toResult]
    exact ht
  rcases stage2_triple_mem ht2 with ⟨e, he, qt, heq2⟩
  exact ⟨e, he, by rw [heq2], by rw [heq2]⟩

theorem zip3_pair_mem {α β γ : Type} :
    ∀ {a : List α} {b : List β} {c : List γ} {t : α × β × γ},
      t ∈ zip3 a b c → (t.1, t.2.1) ∈ a.zip b := by
  intro a
  induction a with
  | nil => intro b c t ht; cases ht
  | cons x l ih =>
    intro b c t ht
    cases b with
    | nil => cases ht
    | cons y m =>
      cases c with
      | nil => cases ht
      | cons z o =>
        rcases List.mem_cons.mp ht with rfl | h2
        · simp [List.zip_cons_cons]
        · simp only [List.zip_cons_cons, List.mem_cons]
          exact Or.inr (ih h2)

theorem resultProv_rerank (es : List StoreEntry) (r : RetrievalResult)
    (hr : resultProv es r) (intent : Str) (k : Nat) :
    resultProv es (rerank_with_intent r.documents r.metadatas r.distances intent k) := by
  rw [rerank_eq_pipeline]
  apply resultProv_toResult
  intro t ht
  have ht2 := mem_sortByKey.mp ((List.take_sublist _ _).subset ht)
  rcases List.mem_map.mp ht2 with ⟨t0, ht0, rfl⟩
  have hpair : (t0.1, t0.2.1) ∈ r.documents.zip r.metadatas := zip3_pair_mem ht0
  exact List.forall₂_zip hr hpair

theorem augAppend_inv {es : List StoreEntry} {a : AugAcc} (ha : augInv es a)
    {doc : Str} {md : ChunkMeta} (hprov : entryPairProv es (doc, md)) (d : ℚ) :
    augInv es (augAppend a doc md d) := by
  unfold augAppend
  split
  · exact ha
  · refine ⟨?_, ?_⟩
    · show a.seen ++ [doc.take 100] = (a.docs ++ [doc]).map fun d2 => d2.take 100
      rw [List.map_append, ha.1]
      rfl
    · show List.Forall₂ (fun d2 m2 => entryPairProv es (d2, m2))
        (a.docs ++ [doc]) (a.metas ++ [md])
      exact List.rel_append ha.2 (List.Forall₂.cons hprov List.Forall₂.nil)

theorem augAppend_pairs_mono {a : AugAcc} (hlen : a.docs.length = a.metas.length)
    {p : Str × ChunkMeta} (hp : p ∈ a.docs.zip a.metas) (doc : Str) (md : ChunkMeta)
    (d : ℚ) : p ∈ (augAppend a doc md d).docs.zip (augAppend a doc md d).metas := by
  unfold augAppend
  split
  · exact hp
  · show p ∈ (a.docs ++ [doc]).zip (a.metas ++ [md])
    rw [List.zip_append hlen]
    exact List.mem_append_left _ hp

theorem augFold_inv_pair (es : List StoreEntry) (p : Str × ChunkMeta)
    (ts : List (Str × ChunkMeta × ℚ)) (hts : ∀ t ∈ ts, entryPairProv es (t.1, t.2.1))
    {a : AugAcc} (ha : augInv es a) (hp : p ∈ a.docs.zip a.metas) :
    augInv es (ts.foldl (fun a2 t =>
        if t.2.1.mtype = some (lit "location") then augAppend a2 t.1 t.2.1 t.2.2 else a2)
        a) ∧
      p ∈ (ts.foldl (fun a2 t =>
          if t.2.1.mtype = some (lit "location") then augAppend a2 t.1 t.2.1 t.2.2 else a2)
          a).docs.zip
        (ts.foldl (fun a2 t =>
          if t.2.1.mtype = some (lit "location") then augAppend a2 t.1 t.2.1 t.2.2 else a2)
          a).metas := by
  refine @foldl_inv _ _ (fun a2 : AugAcc => augInv es a2 ∧ p ∈ a2.docs.zip a2.metas)
    (fun (a2 : AugAcc) (t : Str × ChunkMeta × ℚ) =>
      if t.2.1.mtype = some (lit "location") then augAppend a2 t.1 t.2.1 t.2.2 else a2)
    ts a ⟨ha, hp⟩ ?_
  intro a2 t htmem ha2
  dsimp only
  split
  · exact ⟨augAppend_inv ha2.1 (hts t htmem) t.2.2,
      augAppend_pairs_mono ha2.1.2.length_eq ha2.2 t.1 t.2.1 t.2.2⟩
  · exact ha2

theorem augStep_inv (es : List StoreEntry) (f : Option WhereFilter) (qtext : Str)
    {a : AugAcc} (ha : augInv es a) : augInv es (augStep es f qtext a) := by
  unfold augStep
  refine @foldl_inv _ _ (augInv es)
    (fun (a2 : AugAcc) (t : Str × ChunkMeta × ℚ) =>
      if t.2.1.mtype = some (lit "location") then augAppend a2 t.1 t.2.1 t.2.2 else a2)
    (queryTriples (storeQuery es qtext 2 f)) a ha ?_
  intro a2 t htmem ha2
  dsimp only
  split
  · rcases mem_storeQuery htmem with ⟨e, he, heq, _⟩
    exact augAppend_inv ha2 ⟨e, he, by rw [heq], by rw [heq]⟩ t.2.2
  · exact ha2

theorem augStep_inv_pair (es : List StoreEntry) (f : Option WhereFilter) (qtext : Str)
    (p : Str × ChunkMeta) {a : AugAcc} (ha : augInv es a) (hp : p ∈ a.docs.zip a.metas) :
    augInv es (augStep es f qtext a) ∧
      p ∈ (augStep es f qtext a).docs.zip (augStep es f qtext a).metas := by
  unfold augStep
  refine augFold_inv_pair es p _ ?_ ha hp
  intro t ht
  rcases mem_storeQuery ht with ⟨e, he, heq, _⟩
  exact ⟨e, he, by rw [heq], by rw [heq]⟩

theorem augStep_covers (es : List StoreEntry) (u : Str) {a : AugAcc}
    (ha : augInv es a)
    (hex : ∃ e ∈ es, filterMatches e.meta (.unitIdLoc u) = true)
    (hnos : noShadow es) :
    ∃ p ∈ (augStep es (some (.unitIdLoc u)) u a).docs.zip
        (augStep es (some (.unitIdLoc u)) u a).metas,
      p.2.mtype = some (lit "location") ∧ p.2.unit_id = some u := by
  have hne : queryTriples (storeQuery es u 2 (some (.unitIdLoc u))) ≠ [] :=
    @storeQuery_filtered_nonempty es u (.unitIdLoc u) hex 2 (by norm_num)
  have hprovs : ∀ t ∈ queryTriples (storeQuery es u 2 (some (.unitIdLoc u))),
      entryPairProv es (t.1, t.2.1) := by
    intro t ht
    rcases mem_storeQuery ht with ⟨e, he, heq, _⟩
    exact ⟨e, he, by rw [heq], by rw [heq]⟩
  cases hq : queryTriples (storeQuery es u 2 (some (.unitIdLoc u))) with
  | nil => exact absurd hq hne
  | cons t0 rest =>
    have ht0 : t0 ∈ queryTriples (storeQuery es u 2 (some (.unitIdLoc u))) := by
      rw [hq]
      exact List.mem_cons_self t0 rest
    rcases mem_storeQuery ht0 with ⟨e0, he0, heq0, hflp⟩
    have hfm : e0.meta.unit_id = some u ∧ e0.meta.mtype = some (lit "location") := by
      have h := hflp (.unitIdLoc u) rfl
      simpa [filterMatches, Bool.and_eq_true, decide_eq_true_eq] using h
    have hloc0 : t0.2.1.mtype = some (lit "location") := by
      rw [heq0]
      exact hfm.2
    have hprovs2 : ∀ t ∈ rest, entryPairProv es (t.1, t.2.1) := fun t ht =>
      hprovs t (by rw [hq]; exact List.mem_cons_of_mem t0 ht)
    unfold augStep
    rw [hq, List.foldl_cons]
    rw [if_pos hloc0]
    by_cases hseen : t0.1.take 100 ∈ a.seen
    · rw [show augAppend a t0.1 t0.2.1 t0.2.2 = a from by
        unfold augAppend; rw [if_pos hseen]]
      rw [ha.1] at hseen
      rcases List.mem_map.mp hseen with ⟨d2, hd2mem, hd2eq⟩
      have hd2eq2 : d2.take 100 = t0.1.take 100 := hd2eq
      rcases forall₂_mem_left ha.2 hd2mem with ⟨m2, hpairmem, hprov2⟩
      rcases hprov2 with ⟨e2, he2, hed, hem⟩
      have hed2 : e2.doc = d2 := hed
      have hem2 : e2.meta = m2 := hem
      have ht01 : t0.1 = e0.doc := by rw [heq0]
      have htake : e2.doc.take 100 = e0.doc.take 100 := by
        rw [hed2, hd2eq2, ht01]
      rcases hnos e0 he0 hfm.2 e2 he2 htake with ⟨hm2loc, hm2uid⟩
      have hrest := augFold_inv_pair es (d2, m2) rest hprovs2 ha hpairmem
      exact ⟨(d2, m2), hrest.2, by rw [← hem2]; exact hm2loc,
        by rw [← hem2, hm2uid, hfm.1]⟩
    · have hinv2 : augInv es (augAppend a t0.1 t0.2.1 t0.2.2) :=
        augAppend_inv ha (hprovs t0 ht0) t0.2.2
      have hmem2 : (t0.1, t0.2.1) ∈ (augAppend a t0.1 t0.2.1 t0.2.2).docs.zip
          (augAppend a t0.1 t0.2.1 t0.2.2).metas := by
        unfold augAppend
        rw [if_neg hseen]
        show (t0.1, t0.2.1) ∈ (a.docs ++ [t0.1]).zip (a.metas ++ [t0.2.1])
        rw [List.zip_append ha.2.length_eq]
        exact List.mem_append_right _
          (show (t0.1, t0.2.1) ∈ [(t0.1, t0.2.1)] from List.mem_singleton_self _)
      have hrest := augFold_inv_pair es (t0.1, t0.2.1) rest hprovs2 hinv2 hmem2
      exact ⟨(t0.1, t0.2.1), hrest.2, by rw [heq0]; exact hfm.2,
        by rw [heq0]; exact hfm.1⟩

theorem append_covers (es : List StoreEntry) (r : RetrievalResult)
    (unit_ids unit_names : List Str) (u : Str) (hu : u ∈ unit_ids)
    (hprov : resultProv es r)
    (hex : ∃ e ∈ es, filterMatches e.meta (.unitIdLoc u) = true)
    (hnos : noShadow es) :
    ∃ p ∈ resultPairs (append_location_chunks es r unit_ids unit_names),
      p.2.mtype = some (lit "location") ∧ p.2.unit_id = some u := by
  rcases List.append_of_mem hu with ⟨l1, l2, rfl⟩
  have h0 : augInv es
      ⟨r.documents, r.metadatas, r.distances, r.documents.map fun d => d.take 100⟩ :=
    ⟨rfl, hprov⟩
  have h1 : augInv es (l1.foldl (fun a v => augStep es (some (.unitIdLoc v)) v a)
      ⟨r.documents, r.metadatas, r.distances, r.documents.map fun d => d.take 100⟩) :=
    @foldl_inv _ _ (augInv es) (fun a v => augStep es (some (.unitIdLoc v)) v a) l1 _ h0
      (fun a v _ ha => augStep_inv es _ v ha)
  rcases augStep_covers es u h1 hex hnos with ⟨p, hp, hploc, hpuid⟩
  have hstepinv : augInv es (augStep es (some (.unitIdLoc u)) u
      (l1.foldl (fun a v => augStep es (some (.unitIdLoc v)) v a)
        ⟨r.documents, r.metadatas, r.distances, r.documents.map fun d => d.take 100⟩)) :=
    augStep_inv es _ u h1
  have h2 := @foldl_inv _ _
    (fun a : AugAcc => augInv es a ∧ p ∈ a.docs.zip a.metas)
    (fun a v => augStep es (some (.unitIdLoc v)) v a) l2 _
    ⟨hstepinv, hp⟩
    (fun a v _ ha => augStep_inv_pair es (some (.unitIdLoc v)) v p ha.1 ha.2)
  have hne : (l1 ++ u :: l2).isEmpty = false := by
    cases l1 <;> rfl
  have hres : append_location_chunks es r (l1 ++ u :: l2) unit_names =
      { documents := ((l1 ++ u :: l2).foldl (fun a v => augStep es (some (.unitIdLoc v)) v a)
          ⟨r.documents, r.metadatas, r.distances, r.documents.map fun d => d.take 100⟩).docs
      , metadatas := ((l1 ++ u :: l2).foldl (fun a v => augStep es (some (.unitIdLoc v)) v a)
          ⟨r.documents, r.metadatas, r.distances, r.documents.map fun d => d.take 100⟩).metas
      , distances := ((l1 ++ u :: l2).foldl (fun a v => augStep es (some (.unitIdLoc v)) v a)
          ⟨r.documents, r.metadatas, r.distances, r.documents.map fun d => d.take 100⟩).dists
      } := by
    unfold append_location_chunks
    rw [hne]
    rfl
  have hsplit : (l1 ++ u :: l2).foldl (fun a v => augStep es (some (.unitIdLoc v)) v a)
      ⟨r.documents, r.metadatas, r.distances, r.documents.map fun d => d.take 100⟩ =
      l2.foldl (fun a v => augStep es (some (.unitIdLoc v)) v a)
        (augStep es (some (.unitIdLoc u)) u
          (l1.foldl (fun a v => augStep es (some (.unitIdLoc v)) v a)
            ⟨r.documents, r.metadatas, r.distances,
              r.documents.map fun d => d.take 100⟩)) := by
    rw [List.foldl_append, List.foldl_cons]
  refine ⟨p, ?_, hploc, hpuid⟩
  show p ∈ (append_location_chunks es r (l1 ++ u :: l2) unit_names).documents.zip
      (append_location_chunks es r (l1 ++ u :: l2) unit_names).metadatas
  rw [hres]
  show p ∈ ((l1 ++ u :: l2).foldl (fun a v => augStep es (some (.unitIdLoc v)) v a)
      ⟨r.documents, r.metadatas, r.distances, r.documents.map fun d => d.take 100⟩).docs.zip
    ((l1 ++ u :: l2).foldl (fun a v => augStep es (some (.unitIdLoc v)) v a)
      ⟨r.documents, r.metadatas, r.distances, r.documents.map fun d => d.take 100⟩).metas
  rw [hsplit]
  exact h2.2

/-- C2: the claimed unconditional location-coverage guarantee fails.  In
`c2store` the only location chunk of unit `u1` shares its (short) document
text with a general chunk of the same unit: stage 2 drops it by fingerprint
and the augmentation step then skips it because its 100-character document
prefix is already seen, so the final two-stage result contains no
location-typed chunk at all even though `u1` is resolved and a location
chunk for `u1` exists in the store. -/
theorem C2_counterexample :
    (lit "u1") ∈ resolvedUnitIds (retrieve_stage1 c2store (lit "q") 5).metadatas ∧
    (∃ e ∈ c2store, e.meta.mtype = some (lit "location") ∧
      e.meta.unit_id = some (lit "u1")) ∧
    ∀ p ∈ resultPairs (retrieve c2store (lit "q") true),
      p.2.mtype ≠ some (lit "location") := by
  refine ⟨by decide, ⟨c2store.get ⟨1, by decide⟩, List.get_mem _ _ _, by decide, by decide⟩,
    ?_⟩
  decide

/-- C2 (amended): on the two-stage path, if the query resolves unit id `u`
from Stage-1 metadata and the store holds a location-typed chunk for `u`,
then — provided no store entry shares its first-100-character document
prefix with a location chunk of a different type or unit (`noShadow`; the
augmentation's prefix dedup can otherwise shadow the location chunk, see
`C2_counterexample`) — the final result contains a location-typed chunk of
unit `u`. -/
theorem C2_location_coverage_amended (es : List StoreEntry) (query u : Str)
    (hu : u ∈ resolvedUnitIds (retrieve_stage1 es query 5).metadatas)
    (hloc : ∃ e ∈ es, e.meta.mtype = some (lit "location") ∧ e.meta.unit_id = some u)
    (hnos : noShadow es) :
    ∃ p ∈ resultPairs (retrieve es query true),
      p.2.mtype = some (lit "location") ∧ p.2.unit_id = some u := by
  rw [retrieve_true_eq]
  have hidsne : (resolvedUnitIds (retrieve_stage1 es query 5).metadatas).isEmpty = false := by
    cases h : resolvedUnitIds (retrieve_stage1 es query 5).metadatas with
    | nil => exact absurd (h ▸ hu) (List.not_mem_nil u)
    | cons a l => rfl
  rw [if_neg (show ¬(((resolvedUnitNames (retrieve_stage1 es query 5).documents
      (retrieve_stage1 es query 5).metadatas).isEmpty &&
      (resolvedUnitIds (retrieve_stage1 es query 5).metadatas).isEmpty) = true) from by
    rw [hidsne]; simp)]
  apply append_covers
  · exact hu
  · exact resultProv_rerank es _ (resultProv_stage2 es _ _ query 10) _ 5
  · rcases hloc with ⟨e, he, hm, hid⟩
    refine ⟨e, he, ?_⟩
    simp [filterMatches, hid, hm]
  · exact hnos

theorem C2_witness :
    ∃ p ∈ resultPairs (retrieve c2wstore (lit "q") true),
      p.2.mtype = some (lit "location") ∧ p.2.unit_id = some (lit "u1") :=
  C2_location_coverage_amended c2wstore (lit "q") (lit "u1") (by decide)
    ⟨c2wstore.get ⟨0, by decide⟩, List.get_mem _ _ _, by decide, by decide⟩
    (by unfold noShadow; decide)
